import Mathlib

/-!
# Verification of the statsd metric-aggregation core

A shallow embedding of the parts of the statsd repository that the frozen
claims talk about, together with proofs settling each claim.

Sources embedded from code present in the repository:
* `src/statsd/src/metrics/DurationMetricProducer.cpp` (guardrail, flush,
  matched-event handling, sliced-condition fast path),
* `src/statsd/src/metrics/MetricsManager.cpp` (`checkLogCredentials`),
* the inline members of `src/statsd/src/anomaly/AnomalyTracker.h` and
  `src/statsd/src/HashableDimensionKey.h`.

The bodies of `AnomalyTracker.cpp`, `HashableDimensionKey.cpp`,
`FieldValue.h`, `MetricProducer.h`, `StatsdStats.h` and the duration
trackers are not part of the repository snapshot; definitions that depend
on them are modelled from the specification and are marked
`Modelled from the spec:` in their doc comments.
-/

namespace Statsd

/-! ## Field values, matchers and dimension keys

Modelled from the spec §3 (FieldValue.h and HashableDimensionKey.cpp are
not in the snapshot): a field value carries a packed field path whose leaf
position is a 7-bit index plus a 1-bit "positional identity is
semantically irrelevant" flag, set by FIRST/LAST/ANY matchers.
-/

/-- Modelled from the spec: a field path. `tag` is the root tag id,
`path` the ancestor tag ids, `pos` the 7-bit leaf position index and
`posMasked` the 1-bit flag meaning the positional identity is
semantically irrelevant (the 0x80 mask of `HashableDimensionKey.h`). -/
structure Field where
  tag : Int
  path : List Nat
  pos : Nat
  posMasked : Bool
deriving DecidableEq, Repr

/-- Modelled from the spec: a tagged scalar payload of a field value. -/
inductive Value where
  | vInt (i : Int)
  | vLong (l : Int)
  | vStr (s : String)
deriving DecidableEq, Repr

/-- Modelled from the spec: a field value, a field path plus a payload. -/
structure FieldValue where
  field : Field
  value : Value
deriving DecidableEq, Repr

/-- Position selectors of a matcher field (spec §3). -/
inductive Position where
  | exact
  | first
  | last
  | anyPos
  | all
deriving DecidableEq, Repr

/-- Modelled from the spec: a matcher field, `(root tag, field path,
position selector)`; `pos` is the exact leaf index used by EXACT. -/
structure Matcher where
  tag : Int
  path : List Nat
  pos : Nat
  position : Position
deriving DecidableEq, Repr

/-- Masking a field: the position index is removed and the
position-irrelevant flag is set (the 0x80 mask described in
`HashableDimensionKey.h` lines 176-186). -/
def maskField (f : Field) : Field :=
  { f with pos := 0, posMasked := true }

/-- Masking a field value masks its field and keeps the payload. -/
def maskFV (v : FieldValue) : FieldValue :=
  { v with field := maskField v.field }

/-- A field matches a matcher's root tag and path, at any position
(used by FIRST/LAST/ANY/ALL; spec §4.1). -/
def baseMatches (m : Matcher) (f : Field) : Bool :=
  m.tag == f.tag && m.path == f.path

/-- A field matches a matcher at the exact field path (EXACT; spec §4.1). -/
def exactMatches (m : Matcher) (f : Field) : Bool :=
  baseMatches m f && m.pos == f.pos && !f.posMasked

/-- Modelled from the spec §4.1: the values one matcher extracts from an
atom's value vector. EXACT copies the value at the exact path; FIRST/LAST/ANY
locate the first/last/any occurrence at any position and mask its position;
ALL copies every occurrence masked. `none` when the matcher fails. -/
def matcherHits (m : Matcher) (vs : List FieldValue) : Option (List FieldValue) :=
  match m.position with
  | Position.exact =>
      (vs.find? (fun v => exactMatches m v.field)).map (fun v => [v])
  | Position.first =>
      (vs.find? (fun v => baseMatches m v.field)).map (fun v => [maskFV v])
  | Position.anyPos =>
      (vs.find? (fun v => baseMatches m v.field)).map (fun v => [maskFV v])
  | Position.last =>
      ((vs.filter (fun v => baseMatches m v.field)).getLast?).map (fun v => [maskFV v])
  | Position.all =>
      if (vs.filter (fun v => baseMatches m v.field)).isEmpty then none
      else some ((vs.filter (fun v => baseMatches m v.field)).map maskFV)

/-- Modelled from the spec §4.1: walk the matcher list in order,
concatenating each matcher's extracted values; the filter fails as a unit
when any matcher fails. -/
def allHits : List Matcher → List FieldValue → Option (List FieldValue)
  | [], _ => some []
  | m :: ms, vs =>
      match matcherHits m vs, allHits ms vs with
      | some h, some t => some (h ++ t)
      | _, _ => none

/-- A dimension key: an ordered sequence of field values
(`HashableDimensionKey`, `HashableDimensionKey.h` lines 53-96). -/
structure HashableDimensionKey where
  values : List FieldValue
deriving DecidableEq, Repr

/-- The empty dimension key (`DEFAULT_DIMENSION_KEY`). -/
def defaultDimensionKey : HashableDimensionKey := ⟨[]⟩

/-- `filterValues` (`HashableDimensionKey.h` lines 176-186): creates a
HashableDimensionKey from field values using the matchers. Modelled from
the spec §4.1, the body being in the absent `HashableDimensionKey.cpp`. -/
def filterValues (ms : List Matcher) (vs : List FieldValue) :
    Option HashableDimensionKey :=
  (allHits ms vs).map HashableDimensionKey.mk

/-- Modelled from the spec §3: equality of dimension keys compares the
value vectors field by field using the position after masking
(`HashableDimensionKey::operator==`). -/
def hdkEq (k1 k2 : HashableDimensionKey) : Bool :=
  k1.values.map maskFV == k2.values.map maskFV

/-- Modelled from the spec: a 32-bit mixing step of a Jenkins-style hash. -/
def hashMix (h x : Nat) : Nat :=
  (h * 31 + x) % 4294967296

/-- Modelled from the spec: hash of a scalar payload. -/
def hashValue : Value → Nat
  | Value.vInt i => hashMix 3 i.natAbs
  | Value.vLong l => hashMix 5 l.natAbs
  | Value.vStr s => s.data.foldl (fun h c => hashMix h c.toNat) 7

/-- Modelled from the spec §3: hash of a single field value, using the
position after masking. -/
def hashFieldValue (v : FieldValue) : Nat :=
  let f := maskField v.field
  hashMix (hashMix (hashMix (f.path.foldl hashMix 11) f.tag.natAbs)
      (if f.posMasked then 1 else f.pos + 2)) (hashValue v.value)

/-- `hashDimension` (`HashableDimensionKey.h` line 165): combines the
hashes of the values; modelled from the spec §3 (masked positions). -/
def hashDimension (k : HashableDimensionKey) : Nat :=
  k.values.foldl (fun h v => hashMix h (hashFieldValue v)) 0

/-- The metric dimension key: `(whatKey, stateValuesKey)`
(`HashableDimensionKey.h` lines 98-141). -/
structure MetricDimensionKey where
  dimensionKeyInWhat : HashableDimensionKey
  stateValuesKey : HashableDimensionKey
deriving DecidableEq, Repr

/-! ## Anomaly tracker (`AnomalyTracker.h`)

`AnomalyTracker.cpp` is not in the snapshot; the operation bodies are
modelled from the spec §4.9 and from the member doc comments of
`AnomalyTracker.h`.  The tracker is generic in the dimension-key type. -/

/-- `DimToValMap`: a finite map from dimension keys to `int64_t` values,
embedded as an association list whose keys are unique. -/
abbrev DimToValMap (K : Type) := List (K × Int)

section DimMaps

variable {K : Type} [DecidableEq K]

/-- Map lookup defaulting to 0 (absent keys behave as value 0). -/
def lookupD : DimToValMap K → K → Int
  | [], _ => 0
  | p :: rest, k => if p.1 = k then p.2 else lookupD rest k

/-- Whether the map holds an entry for the key. -/
def containsKey : DimToValMap K → K → Bool
  | [], _ => false
  | p :: rest, k => p.1 == k || containsKey rest k

/-- `m[k] += v`, creating the entry when absent. -/
def sumInsert : DimToValMap K → K → Int → DimToValMap K
  | [], k, v => [(k, v)]
  | p :: rest, k, v =>
      if p.1 = k then (p.1, p.2 + v) :: rest else p :: sumInsert rest k v

/-- `m[k] = v`, replacing the entry or creating it when absent. -/
def mapSet : DimToValMap K → K → Int → DimToValMap K
  | [], k, v => [(k, v)]
  | p :: rest, k, v =>
      if p.1 = k then (k, v) :: rest else p :: mapSet rest k v

/-- `AnomalyTracker::subtractValueFromSum` (`AnomalyTracker.h` lines
201-202): from `mSumOverPastBuckets[key]` subtracts `bucketValue`,
removing the entry if it is now 0; absent keys are left alone. -/
def subtractValueFromSum : DimToValMap K → K → Int → DimToValMap K
  | [], _, _ => []
  | p :: rest, k, v =>
      if p.1 = k then (if p.2 - v = 0 then rest else (p.1, p.2 - v) :: rest)
      else p :: subtractValueFromSum rest k v

/-- The keys of the association list are pairwise distinct. -/
def keysNodup (m : DimToValMap K) : Prop :=
  m.Pairwise (fun p q => p.1 ≠ q.1)

end DimMaps

section AnomalyTrackerModel

variable {K : Type} [DecidableEq K]

/-- `AnomalyTracker::addBucketToSum` (`AnomalyTracker.h` lines 194-195):
adds the information in the given bucket to `mSumOverPastBuckets`;
a null bucket contributes nothing. -/
def addBucketToSum [DecidableEq K] (sum : DimToValMap K) :
    Option (DimToValMap K) → DimToValMap K
  | none => sum
  | some b => b.foldl (fun s p => sumInsert s p.1 p.2) sum

/-- `AnomalyTracker::subtractBucketFromSum` (`AnomalyTracker.h` lines
197-199): subtracts the bucket's information from `mSumOverPastBuckets`,
removing any items with value 0. -/
def subtractBucketFromSum [DecidableEq K] (sum : DimToValMap K) :
    Option (DimToValMap K) → DimToValMap K
  | none => sum
  | some b => b.foldl (fun s p => subtractValueFromSum s p.1 p.2) sum

/-- The `AnomalyTracker` state (`AnomalyTracker.h` lines 151-215). -/
structure AnomalyTracker (K : Type) where
  /-- `mNumOfPastBuckets`. -/
  numOfPastBuckets : Nat
  /-- `mAlert.trigger_if_sum_gt()` (`getAnomalyThreshold`, lines 94-97). -/
  triggerIfSumGt : Int
  /-- `mAlert.refractory_period_secs()`. -/
  refractoryPeriodSec : Int
  /-- `mPastBuckets`: always of size `mNumOfPastBuckets`; an entry can be
  `none`, meaning no data is present in that bucket (lines 172-174). -/
  pastBuckets : List (Option (DimToValMap K))
  /-- `mSumOverPastBuckets`: cached sum over all existing buckets in
  `mPastBuckets`; its entries are never 0 (lines 176-178). -/
  sumOverPastBuckets : DimToValMap K
  /-- `mMostRecentBucketNum`, starts at -1 (lines 180-181). -/
  mostRecentBucketNum : Int
  /-- `mRefractoryPeriodEndsSec` (lines 183-187), in seconds. -/
  refractoryPeriodEndsSec : DimToValMap K
  /-- Observable log of `informSubscribers` calls: `(key, metricId,
  metricValue)` (line 215). -/
  informedSubscribers : List (K × Int × Int)

/-- One nanosecond-per-second constant (`NS_PER_SEC`). -/
def nsPerSec : Int := 1000000000

/-- `AnomalyTracker::index` (`AnomalyTracker.h` lines 207-209): the slot
of a bucket number in the circular array; requires `bucketNum ≥ 0`. -/
def bucketIndex (t : AnomalyTracker K) (bucketNum : Int) : Nat :=
  (bucketNum % (t.numOfPastBuckets : Int)).toNat

/-- Modelled from the spec §4.9: forgetting one stale bucket, subtracting
its contribution from the per-key sums and emptying its slot. -/
def clearBucket (t : AnomalyTracker K) (bucketNum : Int) : AnomalyTracker K :=
  if t.numOfPastBuckets = 0 ∨ bucketNum < 0 then t
  else
    let i := bucketIndex t bucketNum
    { t with
      sumOverPastBuckets :=
        subtractBucketFromSum t.sumOverPastBuckets (t.pastBuckets.getD i none),
      pastBuckets := t.pastBuckets.set i none }

/-- The list of integers `lo, lo+1, …, hi` (empty when `hi < lo`). -/
def intRange (lo hi : Int) : List Int :=
  (List.range (hi - lo + 1).toNat).map (fun n => lo + (n : Int))

/-- `AnomalyTracker::advanceMostRecentBucketTo` (`AnomalyTracker.h` lines
189-192): advances `mMostRecentBucketNum` to `bucketNum` (when not in the
past), removing the data for buckets
`[mMostRecentBucketNum - mNumOfPastBuckets + 1, bucketNum - mNumOfPastBuckets]`.
Modelled from the spec §4.9 and that comment. -/
def advanceMostRecentBucketTo (t : AnomalyTracker K) (bucketNum : Int) :
    AnomalyTracker K :=
  if bucketNum ≤ t.mostRecentBucketNum then t
  else
    let t' := (intRange (t.mostRecentBucketNum - t.numOfPastBuckets + 1)
        (bucketNum - t.numOfPastBuckets)).foldl clearBucket t
    { t' with mostRecentBucketNum := bucketNum }

/-- `AnomalyTracker::addPastBucket` (bucket-map form, `AnomalyTracker.h`
lines 54-58): adds a bucket for `bucketNum`, replacing an existing one,
and advances to `bucketNum` (when not in the past), effectively filling
intervening buckets with 0s.  Modelled from the spec §4.9.  In the source
the slot for `bucketNum` is empty after advancing; the model subtracts the
slot's (then empty) contents before storing, keeping the cached sum
consistent in every state. -/
def addPastBucket (t : AnomalyTracker K) (bucket : Option (DimToValMap K))
    (bucketNum : Int) : AnomalyTracker K :=
  if t.numOfPastBuckets = 0 then t
  else if bucketNum < 0 ∨ bucketNum ≤ t.mostRecentBucketNum - t.numOfPastBuckets then t
  else if bucketNum ≤ t.mostRecentBucketNum then
    let i := bucketIndex t bucketNum
    { t with
      sumOverPastBuckets :=
        addBucketToSum
          (subtractBucketFromSum t.sumOverPastBuckets (t.pastBuckets.getD i none))
          bucket,
      pastBuckets := t.pastBuckets.set i bucket }
  else
    let t' := advanceMostRecentBucketTo t bucketNum
    let i := bucketIndex t' bucketNum
    { t' with
      sumOverPastBuckets :=
        addBucketToSum
          (subtractBucketFromSum t'.sumOverPastBuckets (t'.pastBuckets.getD i none))
          bucket,
      pastBuckets := t'.pastBuckets.set i bucket }

/-- `AnomalyTracker::addPastBucket` (single-key form, `AnomalyTracker.h`
lines 60-64): inserts or replaces the bucket entry for `bucketNum` at the
given key, advancing as the bucket-map form does.  Modelled from the spec
§4.9 and that comment. -/
def addPastBucketKey (t : AnomalyTracker K) (key : K) (bucketValue : Int)
    (bucketNum : Int) : AnomalyTracker K :=
  if t.numOfPastBuckets = 0 then t
  else if bucketNum < 0 ∨ bucketNum ≤ t.mostRecentBucketNum - t.numOfPastBuckets then t
  else if bucketNum ≤ t.mostRecentBucketNum then
    let i := bucketIndex t bucketNum
    let old := t.pastBuckets.getD i none
    let oldVal := match old with
      | none => 0
      | some b => lookupD b key
    { t with
      sumOverPastBuckets :=
        sumInsert (subtractValueFromSum t.sumOverPastBuckets key oldVal) key bucketValue,
      pastBuckets := t.pastBuckets.set i (some (mapSet (old.getD []) key bucketValue)) }
  else
    let t' := advanceMostRecentBucketTo t bucketNum
    let i := bucketIndex t' bucketNum
    { t' with
      sumOverPastBuckets :=
        addBucketToSum
          (subtractBucketFromSum t'.sumOverPastBuckets (t'.pastBuckets.getD i none))
          (some [(key, bucketValue)]),
      pastBuckets := t'.pastBuckets.set i (some [(key, bucketValue)]) }

/-- `AnomalyTracker::getSumOverPastBuckets` (`AnomalyTracker.h` line 89):
the cached sum of all past bucket values for the key, 0 when absent. -/
def getSumOverPastBuckets (t : AnomalyTracker K) (k : K) : Int :=
  lookupD t.sumOverPastBuckets k

/-- `AnomalyTracker::getRefractoryPeriodEndsSec` (`AnomalyTracker.h`
lines 99-105): the stored refractory period end in seconds, or 0. -/
def getRefractoryPeriodEndsSec (t : AnomalyTracker K) (k : K) : Int :=
  lookupD t.refractoryPeriodEndsSec k

/-- `AnomalyTracker::isInRefractoryPeriod` (`AnomalyTracker.h` lines
204-205).  Modelled from the spec: before the stored refractory period
end, any detected anomaly for the key is ignored. -/
def isInRefractoryPeriod (t : AnomalyTracker K) (timestampNs : Int) (k : K) : Bool :=
  timestampNs < getRefractoryPeriodEndsSec t k * nsPerSec

/-- `AnomalyTracker::detectAnomaly` (`AnomalyTracker.h` lines 66-70).
Modelled from the spec §4.9: advances to `currBucketNum - 1`, then an
anomaly has happened iff the sum over past buckets plus the current
(partially filled) bucket's value strictly exceeds the threshold. -/
def detectAnomaly (t : AnomalyTracker K) (currBucketNum : Int) (k : K)
    (currentBucketValue : Int) : AnomalyTracker K × Bool :=
  let t1 := advanceMostRecentBucketTo t (currBucketNum - 1)
  (t1, decide (getSumOverPastBuckets t1 k + currentBucketValue > t.triggerIfSumGt))

/-- `AnomalyTracker::declareAnomaly` (`AnomalyTracker.h` lines 72-74).
Modelled from the spec §4.9: inside the key's refractory period nothing
happens; otherwise the refractory window end (in seconds) is recorded for
the key and the subscribers are informed. -/
def declareAnomaly (t : AnomalyTracker K) (timestampNs metricId : Int) (k : K)
    (metricValue : Int) : AnomalyTracker K :=
  if isInRefractoryPeriod t timestampNs k then t
  else
    { t with
      refractoryPeriodEndsSec :=
        mapSet t.refractoryPeriodEndsSec k
          (timestampNs / nsPerSec + 1 + t.refractoryPeriodSec),
      informedSubscribers := t.informedSubscribers ++ [(k, metricId, metricValue)] }

/-- `AnomalyTracker::detectAndDeclareAnomaly` (`AnomalyTracker.h` lines
76-81): detects whether an anomaly has happened and, if so, declares it.
Modelled from the spec §4.9. -/
def detectAndDeclareAnomaly (t : AnomalyTracker K) (timestampNs currBucketNum
    metricId : Int) (k : K) (currentBucketValue : Int) : AnomalyTracker K :=
  let r := detectAnomaly t currBucketNum k currentBucketValue
  if r.2 then declareAnomaly r.1 timestampNs metricId k currentBucketValue else r.1

/-- A fresh tracker as built by the `AnomalyTracker` constructor. -/
def initAnomalyTracker (K : Type) (numOfPastBuckets : Nat)
    (triggerIfSumGt refractoryPeriodSec : Int) : AnomalyTracker K :=
  { numOfPastBuckets := numOfPastBuckets
    triggerIfSumGt := triggerIfSumGt
    refractoryPeriodSec := refractoryPeriodSec
    pastBuckets := List.replicate numOfPastBuckets none
    sumOverPastBuckets := []
    mostRecentBucketNum := -1
    refractoryPeriodEndsSec := []
    informedSubscribers := [] }

/-- One call of either `addPastBucket` overload. -/
inductive AddOp (K : Type) where
  | addBucket (bucket : Option (DimToValMap K)) (bucketNum : Int)
  | addKeyValue (key : K) (value : Int) (bucketNum : Int)

/-- Apply one `addPastBucket` call to the tracker. -/
def applyAddOp (t : AnomalyTracker K) : AddOp K → AnomalyTracker K
  | AddOp.addBucket bucket bucketNum => addPastBucket t bucket bucketNum
  | AddOp.addKeyValue key value bucketNum => addPastBucketKey t key value bucketNum

/-- Well-formed inputs: metric producers hand the anomaly tracker only
buckets with unique keys and strictly positive values (the class does not
allow negative values, `AnomalyTracker.h` line 39, and prunes empty
dimensions before reporting). -/
def addOpWF : AddOp K → Prop
  | AddOp.addBucket none _ => True
  | AddOp.addBucket (some b) _ => keysNodup b ∧ ∀ p ∈ b, 0 < p.2
  | AddOp.addKeyValue _ value _ => 0 < value

/-- The value a (possibly absent) past bucket holds for a key. -/
def slotVal (s : Option (DimToValMap K)) (k : K) : Int :=
  match s with
  | none => 0
  | some b => lookupD b k

/-- The sum, over all buckets stored in the `mPastBuckets` ring, of the
bucket's value for a key. -/
def slotsSum (slots : List (Option (DimToValMap K))) (k : K) : Int :=
  (slots.map (fun s => slotVal s k)).sum

/-- The internal consistency of an anomaly tracker: the ring has its fixed
size, the cached `mSumOverPastBuckets` agrees pointwise with the scan over
the stored buckets, its keys are unique and its entries strictly positive,
and every stored bucket has unique keys and strictly positive values. -/
def trackerInv (t : AnomalyTracker K) : Prop :=
  t.pastBuckets.length = t.numOfPastBuckets ∧
  (∀ k, lookupD t.sumOverPastBuckets k = slotsSum t.pastBuckets k) ∧
  keysNodup t.sumOverPastBuckets ∧
  (∀ p ∈ t.sumOverPastBuckets, 0 < p.2) ∧
  (∀ s ∈ t.pastBuckets, ∀ b, s = some b → keysNodup b ∧ ∀ p ∈ b, 0 < p.2)

end AnomalyTrackerModel

/-! ## Duration metric producer (`DurationMetricProducer.cpp`)

The producer code is in the repository.  The duration trackers
(`OringDurationTracker` / `MaxDurationTracker`), the condition wizard, the
`MetricProducer` base class and `StatsdStats` are not; those collaborators
are modelled from the spec (§4.3, §4.5, §4.8) as marked below. -/

/-- The condition states (with their integer values, so that
`mUnSlicedPartCondition > 0` can be evaluated). -/
inductive ConditionState where
  | kNotEvaluated
  | kUnknown
  | kFalse
  | kTrue
deriving DecidableEq, Repr

/-- The integer value of a condition state (`kNotEvaluated = -2`,
`kUnknown = -1`, `kFalse = 0`, `kTrue = 1`). -/
def ConditionState.toInt : ConditionState → Int
  | ConditionState.kNotEvaluated => -2
  | ConditionState.kUnknown => -1
  | ConditionState.kFalse => 0
  | ConditionState.kTrue => 1

/-- A note delivered to a duration tracker by the producer. -/
inductive DNote where
  | start (internalKey : HashableDimensionKey) (condition : Bool) (timestampNs : Int)
  | stop (internalKey : HashableDimensionKey) (timestampNs : Int)
  | stopAll (timestampNs : Int)
deriving DecidableEq, Repr

/-- Modelled from the spec §4.5: the per-`whatKey` state of a sliced
duration tracker — the number of live (started, not yet stopped) starts,
whether the condition currently accumulates, the duration accumulated in
the current bucket, the time accumulation last resumed, and the log of
notes it received. -/
structure DTracker where
  startCount : Nat
  conditionMet : Bool
  accumulatedNs : Int
  lastResumeNs : Int
  notes : List DNote
deriving DecidableEq, Repr

/-- Modelled from the spec §4.5: a fresh tracker created on the first
matched event for a dimension (`createDurationTracker`). -/
def newDTracker (bucketStartNs : Int) : DTracker :=
  { startCount := 0
    conditionMet := false
    accumulatedNs := 0
    lastResumeNs := bucketStartNs
    notes := [] }

/-- Modelled from the spec §4.5: `onConditionChanged` on a tracker.
Delivering the value it already holds changes nothing; a rise resumes
accumulation, a fall pauses it, adding the elapsed wall time when at
least one start is live. -/
def dtOnConditionChanged (tr : DTracker) (condition : Bool) (timestampNs : Int) :
    DTracker :=
  if condition = tr.conditionMet then tr
  else if condition then
    { tr with conditionMet := true, lastResumeNs := timestampNs }
  else
    { tr with
      conditionMet := false
      accumulatedNs := tr.accumulatedNs +
        (if 0 < tr.startCount then timestampNs - tr.lastResumeNs else 0) }

/-- Modelled from the spec §4.5: `noteStart` — a start always increases
the refcount; the first live start under a true condition begins a run. -/
def dtNoteStart (tr : DTracker) (internalKey : HashableDimensionKey)
    (condition : Bool) (timestampNs : Int) : DTracker :=
  { tr with
    startCount := tr.startCount + 1
    conditionMet := condition
    lastResumeNs :=
      if tr.startCount = 0 ∧ condition then timestampNs else tr.lastResumeNs
    notes := tr.notes ++ [DNote.start internalKey condition timestampNs] }

/-- Modelled from the spec §4.5: `noteStop` — releases one start; when the
last live start stops under a true condition the run's wall time is
accumulated. -/
def dtNoteStop (tr : DTracker) (internalKey : HashableDimensionKey)
    (timestampNs : Int) : DTracker :=
  { tr with
    startCount := tr.startCount - 1
    accumulatedNs := tr.accumulatedNs +
      (if tr.startCount = 1 ∧ tr.conditionMet then timestampNs - tr.lastResumeNs else 0)
    notes := tr.notes ++ [DNote.stop internalKey timestampNs] }

/-- Modelled from the spec §4.5: `noteStopAll` forces the refcount to
zero at the event timestamp. -/
def dtNoteStopAll (tr : DTracker) (timestampNs : Int) : DTracker :=
  { tr with
    startCount := 0
    accumulatedNs := tr.accumulatedNs +
      (if 0 < tr.startCount ∧ tr.conditionMet then timestampNs - tr.lastResumeNs else 0)
    notes := tr.notes ++ [DNote.stopAll timestampNs] }

/-- Modelled from the spec §4.5: `hasAccumulatedDuration` — the tracker
still has live starts or a nonzero duration in its current bucket. -/
def dtHasAccumulatedDuration (tr : DTracker) : Bool :=
  0 < tr.startCount || tr.accumulatedNs != 0

/-- Modelled from the spec §4.5: `flushCurrentBucket` on one tracker —
closes the run at the next bucket start, emits the bucket's duration and
restarts accumulation in the new bucket. -/
def dtFlush (tr : DTracker) (nextBucketStartTimeNs : Int) : DTracker × Int :=
  let live := if tr.conditionMet ∧ 0 < tr.startCount
    then nextBucketStartTimeNs - tr.lastResumeNs else 0
  ({ tr with accumulatedNs := 0, lastResumeNs := nextBucketStartTimeNs },
    tr.accumulatedNs + live)

/-- A closed past bucket of a duration metric. -/
structure DurationBucket where
  bucketStartNs : Int
  bucketEndNs : Int
  durationNs : Int
deriving DecidableEq, Repr

/-- The telemetry notes sent to `StatsdStats` that the claims mention. -/
inductive TelemetryEvent where
  | metricDimensionSize (newTupleCount : Nat)
  | hardDimensionLimitReached
  | bucketCount
deriving DecidableEq, Repr

/-- A `Metric2Condition` link (`HashableDimensionKey.h` lines 41-45). -/
structure Metric2ConditionM where
  conditionId : Int
  metricFields : List Matcher
  conditionFields : List Matcher
deriving DecidableEq, Repr

/-- The dimension field a matcher contributes to a translated key. -/
def matcherDimField (m : Matcher) : Field :=
  { tag := m.tag, path := m.path, pos := 0, posMasked := true }

/-- `getDimensionForCondition` (`HashableDimensionKey.h` lines 231-233).
Modelled from the spec §3: the link translates the "what" atom's fields
into the condition atom's fields for the dimension. -/
def getDimensionForCondition (values : List FieldValue) (link : Metric2ConditionM) :
    HashableDimensionKey :=
  ⟨(link.metricFields.zip link.conditionFields).filterMap (fun mc =>
      (values.find? (fun v => baseMatches mc.1 v.field)).map (fun v =>
        { field := matcherDimField mc.2, value := v.value }))⟩

/-- Modelled from the spec §4.3: the view of the condition wizard that the
duration producer consults — whether the condition is simple, whether its
changed dimensions are trackable, the unsliced part's state, the
changed-to-true/false dimension sets (absent when not tracked), the sliced
dimension map and the per-dimension query. -/
structure WizardM where
  isSimpleCondition : Bool
  isChangedDimensionTrackable : Bool
  unSlicedPartState : ConditionState
  changedToTrueDims : Option (List HashableDimensionKey)
  changedToFalseDims : Option (List HashableDimensionKey)
  slicedDimensionMap : List (HashableDimensionKey × Int)
  /-- `query(...) == ConditionState::kTrue` for a linked condition dimension. -/
  queryFn : HashableDimensionKey → Bool

/-- The `DurationMetricProducer` state the claims touch
(`DurationMetricProducer.cpp` / `DurationMetricProducer.h`). -/
structure DProducerState where
  /-- `mTimeBaseNs`. -/
  timeBaseNs : Int
  /-- `mBucketSizeNs`. -/
  bucketSizeNs : Int
  /-- `mCurrentBucketStartTimeNs`. -/
  currentBucketStartTimeNs : Int
  /-- `mCurrentBucketNum`. -/
  currentBucketNum : Int
  /-- `mIsActive`. -/
  isActive : Bool
  /-- `mCondition`. -/
  condition : ConditionState
  /-- `mConditionSliced`. -/
  conditionSliced : Bool
  /-- `mHasLinksToAllConditionDimensionsInTracker`. -/
  hasLinksToAllConditionDimensionsInTracker : Bool
  /-- `mUnSlicedPartCondition`. -/
  unSlicedPartCondition : ConditionState
  /-- `mMetric2ConditionLinks`. -/
  links : List Metric2ConditionM
  /-- `mStopIndex`. -/
  stopIndex : Int
  /-- `mStopAllIndex`. -/
  stopAllIndex : Int
  /-- `mUseWhatDimensionAsInternalDimension`. -/
  useWhatDimensionAsInternalDimension : Bool
  /-- `mDimensionsInWhat`. -/
  dimensionsInWhat : List Matcher
  /-- `mInternalDimensions`. -/
  internalDimensions : List Matcher
  /-- `mCurrentSlicedDurationTrackerMap`, keyed by `whatKey`. -/
  trackerMap : List (HashableDimensionKey × DTracker)
  /-- `mPastBuckets`, keyed by `whatKey`. -/
  pastBuckets : List (HashableDimensionKey × DurationBucket)
  /-- Observable log of `StatsdStats` notes. -/
  telemetry : List TelemetryEvent
  /-- `mHasHitGuardrail`. -/
  hasHitGuardrail : Bool
  /-- `StatsdStats::kDimensionKeySizeSoftLimit` (`StatsdStats.h` is not in
  the snapshot; the constant soft limit is carried here). -/
  softLimit : Nat
  /-- `mDimensionHardLimit`. -/
  dimensionHardLimit : Nat
  /-- Modelled from the spec §4.8: `shard_count` of the dimensional
  sampler (0 or 1 when not sampling). -/
  shardCount : Nat
  /-- Modelled from the spec §4.8: the per-host shard offset. -/
  shardOffset : Nat
  /-- Modelled from the spec §4.8: `mSampledWhatFields`. -/
  sampledWhatFields : List Matcher

/-- Lookup in the sliced duration tracker map. -/
def findTracker (map : List (HashableDimensionKey × DTracker))
    (k : HashableDimensionKey) : Option DTracker :=
  (map.find? (fun p => p.1 == k)).map Prod.snd

/-- `getCurrentBucketEndTimeNs` (in the absent `MetricProducer.h`).
Modelled from the spec §3: bucket start = time base + bucketSize ×
bucketNum, so the current bucket ends one bucket later. -/
def getCurrentBucketEndTimeNs (st : DProducerState) : Int :=
  st.timeBaseNs + (st.currentBucketNum + 1) * st.bucketSizeNs

/-- `DurationMetricProducer::flushCurrentBucketLocked`
(`DurationMetricProducer.cpp` lines 620-640): flushes every tracker into
the past buckets, erases the trackers without accumulated duration, notes
the bucket count, moves the current bucket start and resets
`mHasHitGuardrail`. -/
def flushCurrentBucket (st : DProducerState) (_eventTimeNs nextBucketStartTimeNs : Int) :
    DProducerState :=
  let flushed := st.trackerMap.map (fun p =>
    (p.1, dtFlush p.2 nextBucketStartTimeNs))
  { st with
    trackerMap :=
      (flushed.map (fun p => (p.1, p.2.1))).filter
        (fun p => dtHasAccumulatedDuration p.2)
    pastBuckets := st.pastBuckets ++
      (flushed.filter (fun p => 0 < p.2.2)).map (fun p =>
        (p.1, { bucketStartNs := st.currentBucketStartTimeNs
                bucketEndNs := nextBucketStartTimeNs
                durationNs := p.2.2 }))
    telemetry := st.telemetry ++ [TelemetryEvent.bucketCount]
    currentBucketStartTimeNs := nextBucketStartTimeNs
    hasHitGuardrail := false }

/-- `DurationMetricProducer::flushIfNeededLocked`
(`DurationMetricProducer.cpp` lines 606-618): when the event time has
reached the current bucket's end, closes the bucket and advances the
bucket number by `1 + (eventTimeNs - currentBucketEndTimeNs) / mBucketSizeNs`. -/
def flushIfNeeded (st : DProducerState) (eventTimeNs : Int) : DProducerState :=
  let currentBucketEndTimeNs := getCurrentBucketEndTimeNs st
  if currentBucketEndTimeNs > eventTimeNs then st
  else
    let numBucketsForward := 1 + (eventTimeNs - currentBucketEndTimeNs) / st.bucketSizeNs
    let nextBucketNs := currentBucketEndTimeNs + (numBucketsForward - 1) * st.bucketSizeNs
    let st' := flushCurrentBucket st eventTimeNs nextBucketNs
    { st' with currentBucketNum := st'.currentBucketNum + numBucketsForward }

/-- `DurationMetricProducer::hitGuardRailLocked`
(`DurationMetricProducer.cpp` lines 657-678): for a first-seen `whatKey`,
when the tuple count reached the soft limit the new count is reported;
when the new count would also exceed the hard limit the hard-limit hit is
noted and the event is to be dropped.  Returns the verdict, the telemetry
notes and the new `mHasHitGuardrail`. -/
def hitGuardRail (st : DProducerState) (newKey : MetricDimensionKey) :
    Bool × List TelemetryEvent × Bool :=
  match findTracker st.trackerMap newKey.dimensionKeyInWhat with
  | some _ => (false, [], st.hasHitGuardrail)
  | none =>
    if st.softLimit ≤ st.trackerMap.length then
      let newTupleCount := st.trackerMap.length + 1
      if st.dimensionHardLimit < newTupleCount then
        (true, [TelemetryEvent.metricDimensionSize newTupleCount,
          TelemetryEvent.hardDimensionLimitReached], true)
      else
        (false, [TelemetryEvent.metricDimensionSize newTupleCount], st.hasHitGuardrail)
    else (false, [], st.hasHitGuardrail)

/-- Replace (or create) the tracker stored under a `whatKey`. -/
def setTracker (map : List (HashableDimensionKey × DTracker))
    (k : HashableDimensionKey) (tr : DTracker) :
    List (HashableDimensionKey × DTracker) :=
  match map with
  | [] => [(k, tr)]
  | p :: rest => if p.1 == k then (k, tr) :: rest else p :: setTracker rest k tr

/-- Update the tracker stored under a `whatKey`, when present. -/
def updateTracker (map : List (HashableDimensionKey × DTracker))
    (k : HashableDimensionKey) (f : DTracker → DTracker) :
    List (HashableDimensionKey × DTracker) :=
  map.map (fun p => if p.1 == k then (p.1, f p.2) else p)

/-- `DurationMetricProducer::handleStartEvent`
(`DurationMetricProducer.cpp` lines 680-708): creates a tracker for a
first-seen `whatKey` unless the guardrail drops the event, then notes the
start under the internal dimension key. -/
def handleStartEvent (st : DProducerState) (eventKey : MetricDimensionKey)
    (condition : Bool) (eventTimeNs : Int) (eventValues : List FieldValue) :
    DProducerState :=
  let whatKey := eventKey.dimensionKeyInWhat
  let internalKey :=
    if st.useWhatDimensionAsInternalDimension then whatKey
    else if st.internalDimensions.isEmpty then defaultDimensionKey
    else (filterValues st.internalDimensions eventValues).getD defaultDimensionKey
  match findTracker st.trackerMap whatKey with
  | some _ =>
    { st with
      trackerMap := updateTracker st.trackerMap whatKey
        (fun tr => dtNoteStart tr internalKey condition eventTimeNs) }
  | none =>
    let g := hitGuardRail st eventKey
    if g.1 then
      { st with telemetry := st.telemetry ++ g.2.1, hasHitGuardrail := g.2.2 }
    else
      { st with
        telemetry := st.telemetry ++ g.2.1
        hasHitGuardrail := g.2.2
        trackerMap := setTracker st.trackerMap whatKey
          (dtNoteStart (newDTracker st.currentBucketStartTimeNs) internalKey
            condition eventTimeNs) }

/-- `passesSampleCheckLocked` (in the absent `MetricProducer.h`).
Modelled from the spec §4.8: with a configured shard count, admit the
event iff the hash of its sampled fields plus the shard offset is 0
modulo the shard count. -/
def passesSampleCheck (st : DProducerState) (values : List FieldValue) : Bool :=
  if st.shardCount ≤ 1 then true
  else
    match filterValues st.sampledWhatFields values with
    | some k => (hashDimension k + st.shardOffset) % st.shardCount == 0
    | none => true

/-- The condition computed for a start event
(`DurationMetricProducer.cpp` lines 822-838): the sliced branch queries
the wizard through the links; otherwise `condition = mCondition ==
ConditionState::kTrue` (the unknown state is not handled there, per the
source TODO); then `condition = condition && mIsActive`. -/
def computeStartCondition (st : DProducerState) (w : WizardM)
    (values : List FieldValue) : Bool :=
  (if st.conditionSliced then
    w.queryFn
      (getDimensionForCondition values (st.links.headD ⟨0, [], []⟩))
  else st.condition == ConditionState.kTrue) && st.isActive

/-- `DurationMetricProducer::handleMatchedLogEventValuesLocked`
(`DurationMetricProducer.cpp` lines 723-842): drops events before the
time base; flushes when active; dispatches stop-all, sampling, stop and
start handling.  The state-slicing steps (`mSlicedStateAtoms` etc.) query
the absent `StateTracker` and are omitted: the state-values key stays
`DEFAULT_DIMENSION_KEY`. -/
def handleMatchedLogEventValues (st : DProducerState) (w : WizardM)
    (matcherIndex : Int) (values : List FieldValue) (eventTimeNs : Int) :
    DProducerState :=
  if eventTimeNs < st.timeBaseNs then st
  else
    let st1 := if st.isActive then flushIfNeeded st eventTimeNs else st
    if matcherIndex = st1.stopAllIndex then
      { st1 with
        trackerMap :=
          (st1.trackerMap.map (fun p => (p.1, dtNoteStopAll p.2 eventTimeNs))).filter
            (fun p => dtHasAccumulatedDuration p.2) }
    else if ¬ passesSampleCheck st1 values then st1
    else
      let dimensionInWhat :=
        if st1.dimensionsInWhat.isEmpty then defaultDimensionKey
        else (filterValues st1.dimensionsInWhat values).getD defaultDimensionKey
      if matcherIndex = st1.stopIndex then
        let internalKey :=
          if st1.useWhatDimensionAsInternalDimension then dimensionInWhat
          else if st1.internalDimensions.isEmpty then defaultDimensionKey
          else (filterValues st1.internalDimensions values).getD defaultDimensionKey
        match findTracker st1.trackerMap dimensionInWhat with
        | none => st1
        | some _ =>
          { st1 with
            trackerMap :=
              (updateTracker st1.trackerMap dimensionInWhat
                (fun tr => dtNoteStop tr internalKey eventTimeNs)).filter
                (fun p => p.1 != dimensionInWhat || dtHasAccumulatedDuration p.2) }
      else
        handleStartEvent st1 ⟨dimensionInWhat, defaultDimensionKey⟩
          (computeStartCondition st1 w values) eventTimeNs values

/-! ### The sliced-condition-change fast path (claim C8) -/

/-- The condition dimension a tracker's `whatKey` is linked to. -/
def linkedDim (st : DProducerState) (whatKey : HashableDimensionKey) :
    HashableDimensionKey :=
  getDimensionForCondition whatKey.values (st.links.headD ⟨0, [], []⟩)

/-- Deliver a list of `onConditionChanged` notifications to a tracker. -/
def deliverAll (tr : DTracker) (cs : List Bool) (eventTime : Int) : DTracker :=
  cs.foldl (fun tr c => dtOnConditionChanged tr c eventTime) tr

/-- The `onConditionChanged` values the fast path delivers to the tracker
whose linked condition dimension is `L`, per branch of
`onSlicedConditionMayChangeLocked_opt1` (`DurationMetricProducer.cpp`
lines 384-420). -/
def opt1Notifs (w : WizardM) (currentUnSlicedPartCondition : Bool)
    (L : HashableDimensionKey) : List Bool :=
  match w.changedToTrueDims, w.changedToFalseDims with
  | some ct, some cf =>
    if ct.isEmpty ∧ cf.isEmpty then
      if 0 < lookupD w.slicedDimensionMap L then [currentUnSlicedPartCondition] else []
    else if currentUnSlicedPartCondition then
      (if L ∈ ct then [true] else []) ++ (if L ∈ cf then [false] else [])
    else []
  | _, _ =>
    if 0 < lookupD w.slicedDimensionMap L then [currentUnSlicedPartCondition] else []

/-- `DurationMetricProducer::onSlicedConditionMayChangeLocked_opt1`
(`DurationMetricProducer.cpp` lines 362-421).  Returns the new producer
state together with the sequence of `onConditionChanged` notifications it
delivered, as `(whatKey, value)` pairs in delivery order. -/
def onSlicedConditionMayChangeOpt1 (st : DProducerState) (w : WizardM)
    (eventTime : Int) :
    DProducerState × List (HashableDimensionKey × Bool) :=
  if ¬ (st.links.length = 1 ∧ st.hasLinksToAllConditionDimensionsInTracker) then
    (st, [])
  else if ¬ w.isSimpleCondition ∧ st.unSlicedPartCondition = ConditionState.kFalse ∧
      w.unSlicedPartState = ConditionState.kFalse then
    (st, [])
  else
    let st1 := if w.isSimpleCondition then st
      else { st with unSlicedPartCondition := w.unSlicedPartState }
    let currentUnSliced :=
      if w.isSimpleCondition then true else decide (0 < w.unSlicedPartState.toInt)
    ({ st1 with
        trackerMap := st1.trackerMap.map (fun p =>
          (p.1, deliverAll p.2 (opt1Notifs w currentUnSliced (linkedDim st p.1))
            eventTime)) },
      st.trackerMap.flatMap (fun p =>
        (opt1Notifs w currentUnSliced (linkedDim st p.1)).map (fun c => (p.1, c))))

/-- Modelled from the spec §4.3/§4.5: the generic path — for each live
duration tracker, `onSlicedConditionMayChange` re-queries the tracker's
linked condition dimension and delivers the result as
`onConditionChanged`.  Returns the new state and the notification
sequence. -/
def genericSlicedConditionChange (st : DProducerState) (w : WizardM)
    (eventTime : Int) :
    DProducerState × List (HashableDimensionKey × Bool) :=
  ({ st with
      trackerMap := st.trackerMap.map (fun p =>
        (p.1, dtOnConditionChanged p.2 (w.queryFn (linkedDim st p.1)) eventTime)) },
    st.trackerMap.map (fun p => (p.1, w.queryFn (linkedDim st p.1))))

/-- `DurationMetricProducer::onSlicedConditionMayChangeInternalLocked`
(`DurationMetricProducer.cpp` lines 423-434): the fast path when the
changed dimensions are trackable and the metric links all condition
dimensions of the tracker, the generic per-tracker path otherwise. -/
def onSlicedConditionMayChangeInternal (st : DProducerState) (w : WizardM)
    (eventTime : Int) :
    DProducerState × List (HashableDimensionKey × Bool) :=
  if w.isChangedDimensionTrackable ∧ st.hasLinksToAllConditionDimensionsInTracker then
    onSlicedConditionMayChangeOpt1 st w eventTime
  else
    genericSlicedConditionChange st w eventTime

/-! ## Log-source credentials (`MetricsManager.cpp`) -/

/-- `AID_ROOT` (android_filesystem_config.h). -/
def AID_ROOT : Int := 0

/-- `AID_SYSTEM` (android_filesystem_config.h). -/
def AID_SYSTEM : Int := 1000

/-- `AID_SHELL` (android_filesystem_config.h). -/
def AID_SHELL : Int := 2000

/-- The part of a `LogEvent` that `checkLogCredentials` reads. -/
structure LogEventCred where
  tagId : Int
  uid : Int
deriving DecidableEq, Repr

/-- The part of a `MetricsManager` that `checkLogCredentials` reads
(`MetricsManager.h` lines 226-231). -/
structure MetricsManagerCred where
  whitelistedAtomIds : List Int
  allowedLogSources : List Int
deriving DecidableEq, Repr

/-- `MetricsManager::checkLogCredentials` (`MetricsManager.cpp` lines
510-527): whitelisted atoms pass; uids of pre-installed system services
(`AID_ROOT`, or in `[AID_SYSTEM, AID_SHELL)`) pass; otherwise the uid
must be an allowed log source. -/
def checkLogCredentials (m : MetricsManagerCred) (event : LogEventCred) : Bool :=
  if event.tagId ∈ m.whitelistedAtomIds then true
  else if event.uid == AID_ROOT ||
      (AID_SYSTEM ≤ event.uid && event.uid < AID_SHELL) then true
  else event.uid ∈ m.allowedLogSources

/-! ## Abbreviations used when stating the sliced-condition equivalence -/

/-- The sliced child predicate currently holds the dimension (its entry in
the sliced dimension map is positive). -/
def slicedNow (w : WizardM) (k : HashableDimensionKey) : Bool :=
  decide (0 < lookupD w.slicedDimensionMap k)

/-- The sliced child predicate's value for the dimension before the change
the wizard reports: flipped for the dimensions in the changed sets. -/
def slicedOld (w : WizardM) (ct cf : List HashableDimensionKey)
    (k : HashableDimensionKey) : Bool :=
  if k ∈ ct then false else if k ∈ cf then true else slicedNow w k

/-- The unsliced part of the condition after the change, as the fast path
computes it (`currentUnSlicedPartCondition`): true for a simple condition,
else `mUnSlicedPartCondition > 0` after the update. -/
def wizUNew (w : WizardM) : Bool :=
  if w.isSimpleCondition then true else decide (0 < w.unSlicedPartState.toInt)

/-- The unsliced part of the condition before the change: true for a
simple condition, else `mUnSlicedPartCondition > 0` before the update. -/
def prodUOld (st : DProducerState) (w : WizardM) : Bool :=
  if w.isSimpleCondition then true else decide (0 < st.unSlicedPartCondition.toInt)

/-! ## Concrete instances used by witnesses and counterexamples -/

/-- A concrete base field at attribution-chain position 1. -/
def cexFieldPos1 : Field := ⟨1, [2], 1, false⟩

/-- The same base field at attribution-chain position 2. -/
def cexFieldPos2 : Field := ⟨1, [2], 2, false⟩

/-- A LAST matcher on that base field. -/
def cexLastM : Matcher := ⟨1, [2], 0, Position.last⟩

/-- A FIRST matcher on the same base field. -/
def cexFirstM : Matcher := ⟨1, [2], 0, Position.first⟩

/-- An atom value vector with two occurrences of the field. -/
def cexVals : List FieldValue :=
  [⟨cexFieldPos1, Value.vInt 1⟩, ⟨cexFieldPos2, Value.vInt 2⟩]

/-- A concrete duration-producer state used by witnesses. -/
def sampleProducerState : DProducerState :=
  { timeBaseNs := 0
    bucketSizeNs := 60000000000
    currentBucketStartTimeNs := 0
    currentBucketNum := 0
    isActive := true
    condition := ConditionState.kFalse
    conditionSliced := false
    hasLinksToAllConditionDimensionsInTracker := false
    unSlicedPartCondition := ConditionState.kUnknown
    links := []
    stopIndex := 2
    stopAllIndex := 3
    useWhatDimensionAsInternalDimension := true
    dimensionsInWhat := []
    internalDimensions := []
    trackerMap := []
    pastBuckets := []
    telemetry := []
    hasHitGuardrail := false
    softLimit := 1
    dimensionHardLimit := 2
    shardCount := 0
    shardOffset := 0
    sampledWhatFields := [] }

/-- A concrete wizard view used by witnesses. -/
def sampleWizard : WizardM :=
  { isSimpleCondition := true
    isChangedDimensionTrackable := true
    unSlicedPartState := ConditionState.kTrue
    changedToTrueDims := some []
    changedToFalseDims := some []
    slicedDimensionMap := []
    queryFn := fun _ => false }

/-- A dimension key naming uid 7, used in sliced-condition scenarios. -/
def cexUidKey : HashableDimensionKey := ⟨[⟨maskField ⟨1, [2], 0, true⟩, Value.vInt 7⟩]⟩

/-- A producer state with a single fully linked condition link and one
live tracker whose linked condition dimension did not change. -/
def cexOptSt : DProducerState :=
  { sampleProducerState with
    conditionSliced := true
    hasLinksToAllConditionDimensionsInTracker := true
    links := [⟨9, [], []⟩]
    trackerMap := [(⟨[]⟩, newDTracker 0)] }

/-- A wizard view whose changed sets are empty while the tracker's linked
dimension is currently false. -/
def cexOptW : WizardM :=
  { sampleWizard with
    changedToTrueDims := some []
    changedToFalseDims := some []
    slicedDimensionMap := []
    queryFn := fun _ => false }

/-- A producer state for the witness of the amended sliced-condition
claim: one tracker whose linked dimension changes to true. -/
def witOptSt : DProducerState :=
  { sampleProducerState with
    conditionSliced := true
    hasLinksToAllConditionDimensionsInTracker := true
    links := [⟨9, [], []⟩]
    trackerMap := [(⟨[]⟩, newDTracker 0)] }

/-- The wizard view for that witness: the (empty-key) linked dimension is
reported changed-to-true and is now positively sliced. -/
def witOptW : WizardM :=
  { sampleWizard with
    changedToTrueDims := some [⟨[]⟩]
    changedToFalseDims := some []
    slicedDimensionMap := [(⟨[]⟩, 1)]
    queryFn := fun k => decide (0 < lookupD [((⟨[]⟩ : HashableDimensionKey), (1 : Int))] k) }

/-- Two matchers extract disjoint fields: different root tag or path. -/
def distinctBase (m1 m2 : Matcher) : Prop :=
  m1.tag ≠ m2.tag ∨ m1.path ≠ m2.path

instance (m1 m2 : Matcher) : Decidable (distinctBase m1 m2) :=
  inferInstanceAs (Decidable (_ ∨ _))

/-- The occurrence a FIRST/LAST/ANY matcher selects from a value vector. -/
def selectedHit (m : Matcher) (vs : List FieldValue) : Option FieldValue :=
  match m.position with
  | Position.first => vs.find? (fun v => baseMatches m v.field)
  | Position.anyPos => vs.find? (fun v => baseMatches m v.field)
  | Position.last => (vs.filter (fun v => baseMatches m v.field)).getLast?
  | _ => none

/-! # Theorems -/

/-- C10: `checkLogCredentials` accepts every event whose atom tag is
whitelisted, and every event from `AID_ROOT` or a uid in
`[AID_SYSTEM, AID_SHELL)`, regardless of the allowed-log-source list; any
other event is accepted iff its uid is an allowed log source. -/
theorem checkLogCredentials_cases (m : MetricsManagerCred) (e : LogEventCred) :
    (e.tagId ∈ m.whitelistedAtomIds → checkLogCredentials m e = true) ∧
    (e.uid = AID_ROOT ∨ (AID_SYSTEM ≤ e.uid ∧ e.uid < AID_SHELL) →
      checkLogCredentials m e = true) ∧
    (e.tagId ∉ m.whitelistedAtomIds →
      ¬ (e.uid = AID_ROOT ∨ (AID_SYSTEM ≤ e.uid ∧ e.uid < AID_SHELL)) →
      (checkLogCredentials m e = true ↔ e.uid ∈ m.allowedLogSources)) := by
  refine ⟨fun h => by simp [checkLogCredentials, h], fun h => ?_, fun h1 h2 => ?_⟩
  · by_cases ht : e.tagId ∈ m.whitelistedAtomIds
    · simp [checkLogCredentials, ht]
    · rcases h with h | ⟨ha, hb⟩ <;> simp [checkLogCredentials, ht, *]
  · push_neg at h2
    have hru : ¬ (e.uid == AID_ROOT ||
        (AID_SYSTEM ≤ e.uid && e.uid < AID_SHELL)) = true := by
      simp only [Bool.or_eq_true, beq_iff_eq, Bool.and_eq_true, decide_eq_true_eq]
      rintro (h | ⟨ha, hb⟩)
      · exact h2.1 h
      · exact absurd hb (not_lt.mpr (h2.2 ha))
    simp [checkLogCredentials, h1, hru]

/-- Witness for C10 at a concrete event that is neither whitelisted nor a
system uid but is an allowed log source. -/
theorem checkLogCredentials_cases_witness :
    checkLogCredentials ⟨[10], [4242]⟩ ⟨5, 4242⟩ = true :=
  ((checkLogCredentials_cases ⟨[10], [4242]⟩ ⟨5, 4242⟩).2.2 (by decide)
    (by decide)).mpr (by decide)

/-- C7: an event whose timestamp precedes the time base is discarded:
`handleMatchedLogEventValuesLocked` returns at once and the sliced
duration tracker map, the past buckets, the current bucket number and the
current bucket start time are unchanged. -/
theorem handleMatched_before_timeBase_unchanged (st : DProducerState)
    (w : WizardM) (matcherIndex : Int) (values : List FieldValue)
    (eventTimeNs : Int) (h : eventTimeNs < st.timeBaseNs) :
    handleMatchedLogEventValues st w matcherIndex values eventTimeNs = st ∧
    (handleMatchedLogEventValues st w matcherIndex values eventTimeNs).trackerMap
      = st.trackerMap ∧
    (handleMatchedLogEventValues st w matcherIndex values eventTimeNs).pastBuckets
      = st.pastBuckets ∧
    (handleMatchedLogEventValues st w matcherIndex values eventTimeNs).currentBucketNum
      = st.currentBucketNum ∧
    (handleMatchedLogEventValues st w matcherIndex values
        eventTimeNs).currentBucketStartTimeNs
      = st.currentBucketStartTimeNs := by
  have heq : handleMatchedLogEventValues st w matcherIndex values eventTimeNs = st := by
    unfold handleMatchedLogEventValues
    rw [if_pos h]
  exact ⟨heq, by rw [heq], by rw [heq], by rw [heq], by rw [heq]⟩

/-- Witness for C7 at a concrete producer and an event 1 ns before the
time base. -/
theorem handleMatched_before_timeBase_unchanged_witness :
    handleMatchedLogEventValues { sampleProducerState with timeBaseNs := 10 }
      sampleWizard 1 [] 9 = { sampleProducerState with timeBaseNs := 10 } :=
  (handleMatched_before_timeBase_unchanged
    { sampleProducerState with timeBaseNs := 10 } sampleWizard 1 [] 9 (by decide)).1

/-- C9: with an unsliced condition, the condition handed to
`handleStartEvent` is `(mCondition == ConditionState::kTrue) && mIsActive`,
so the unknown condition state behaves exactly like the false state. -/
theorem computeStartCondition_unsliced (st : DProducerState) (w : WizardM)
    (values : List FieldValue) (h : st.conditionSliced = false) :
    computeStartCondition st w values
      = ((st.condition == ConditionState.kTrue) && st.isActive) ∧
    computeStartCondition { st with condition := ConditionState.kUnknown } w values
      = computeStartCondition { st with condition := ConditionState.kFalse } w values := by
  constructor
  · simp [computeStartCondition, h]
  · simp [computeStartCondition, h,
      show (ConditionState.kUnknown == ConditionState.kTrue) = false from rfl,
      show (ConditionState.kFalse == ConditionState.kTrue) = false from rfl]

/-- Witness for C9 at a concrete unsliced producer in the unknown
condition state. -/
theorem computeStartCondition_unsliced_witness :
    computeStartCondition { sampleProducerState with
        condition := ConditionState.kUnknown } sampleWizard []
      = ((ConditionState.kUnknown == ConditionState.kTrue) && true) :=
  (computeStartCondition_unsliced { sampleProducerState with
      condition := ConditionState.kUnknown } sampleWizard [] rfl).1

theorem flushCurrentBucket_num (st : DProducerState) (a b : Int) :
    (flushCurrentBucket st a b).currentBucketNum = st.currentBucketNum := rfl

theorem flushCurrentBucket_start (st : DProducerState) (a b : Int) :
    (flushCurrentBucket st a b).currentBucketStartTimeNs = b := rfl

/-- C6: `flushIfNeededLocked` closes the current bucket exactly when the
event time has reached the bucket's end; within a flush the event lands in
the new current bucket, and an event exactly on the boundary starts the
next bucket at the event time (so the event is attributed to the new
bucket, the flush happening before the event is processed in
`handleMatchedLogEventValuesLocked`). -/
theorem flushIfNeeded_boundary (st : DProducerState) (eventTimeNs : Int)
    (hsz : 0 < st.bucketSizeNs) :
    ((flushIfNeeded st eventTimeNs).currentBucketNum ≠ st.currentBucketNum ↔
      getCurrentBucketEndTimeNs st ≤ eventTimeNs) ∧
    (getCurrentBucketEndTimeNs st ≤ eventTimeNs →
      (flushIfNeeded st eventTimeNs).currentBucketStartTimeNs ≤ eventTimeNs ∧
      eventTimeNs <
        (flushIfNeeded st eventTimeNs).currentBucketStartTimeNs + st.bucketSizeNs) ∧
    (eventTimeNs = getCurrentBucketEndTimeNs st →
      (flushIfNeeded st eventTimeNs).currentBucketStartTimeNs = eventTimeNs ∧
      (flushIfNeeded st eventTimeNs).currentBucketNum = st.currentBucketNum + 1) := by
  by_cases hgt : getCurrentBucketEndTimeNs st > eventTimeNs
  · have heq : flushIfNeeded st eventTimeNs = st := by
      unfold flushIfNeeded
      rw [if_pos hgt]
    refine ⟨?_, fun hle => absurd hle (not_le.mpr hgt),
      fun hb => absurd hb.ge (not_le.mpr hgt)⟩
    rw [heq]
    simp [not_le.mpr hgt]
  · have hle : getCurrentBucketEndTimeNs st ≤ eventTimeNs := not_lt.mp hgt
    have hq0 : 0 ≤ (eventTimeNs - getCurrentBucketEndTimeNs st) / st.bucketSizeNs :=
      Int.ediv_nonneg (sub_nonneg.mpr hle) hsz.le
    have hnum : (flushIfNeeded st eventTimeNs).currentBucketNum =
        st.currentBucketNum +
          (1 + (eventTimeNs - getCurrentBucketEndTimeNs st) / st.bucketSizeNs) := by
      unfold flushIfNeeded
      rw [if_neg hgt]
      simp [flushCurrentBucket_num]
    have hstart : (flushIfNeeded st eventTimeNs).currentBucketStartTimeNs =
        getCurrentBucketEndTimeNs st +
          ((eventTimeNs - getCurrentBucketEndTimeNs st) / st.bucketSizeNs) *
            st.bucketSizeNs := by
      unfold flushIfNeeded
      rw [if_neg hgt]
      simp [flushCurrentBucket_start]
    refine ⟨⟨fun _ => hle, fun _ => by rw [hnum]; omega⟩, fun _ => ?_, fun hb => ?_⟩
    · constructor
      · rw [hstart]
        have := Int.ediv_mul_le (eventTimeNs - getCurrentBucketEndTimeNs st) hsz.ne.symm
        omega
      · rw [hstart]
        have := Int.lt_ediv_add_one_mul_self (eventTimeNs - getCurrentBucketEndTimeNs st) hsz
        have h2 : ((eventTimeNs - getCurrentBucketEndTimeNs st) / st.bucketSizeNs + 1) *
            st.bucketSizeNs =
            (eventTimeNs - getCurrentBucketEndTimeNs st) / st.bucketSizeNs *
              st.bucketSizeNs + st.bucketSizeNs := by ring
        omega
    · have hz : eventTimeNs - getCurrentBucketEndTimeNs st = 0 := by omega
      constructor
      · rw [hstart, hz]
        simp
        omega
      · rw [hnum, hz]
        simp

/-- Witness for C6 at a concrete producer and an event exactly on the
first bucket boundary. -/
theorem flushIfNeeded_boundary_witness :
    (flushIfNeeded sampleProducerState 60000000000).currentBucketStartTimeNs
      = 60000000000 ∧
    (flushIfNeeded sampleProducerState 60000000000).currentBucketNum = 0 + 1 :=
  (flushIfNeeded_boundary sampleProducerState 60000000000 (by decide)).2.2 (by decide)

theorem findTracker_setTracker (map : List (HashableDimensionKey × DTracker))
    (k : HashableDimensionKey) (tr : DTracker) :
    findTracker (setTracker map k tr) k = some tr := by
  induction map with
  | nil => simp [setTracker, findTracker]
  | cons p rest ih =>
    by_cases h : p.1 == k
    · simp [setTracker, h, findTracker]
    · simp only [setTracker, h, if_false, Bool.false_eq_true, findTracker] at ih ⊢
      rw [List.find?_cons_of_neg _ (by simpa using h)]
      exact ih

/-- C5: for a first-seen `whatKey`, when admitting it would push the tuple
count over the hard dimension limit, `handleStartEvent` drops the event —
no tracker is created, no error is raised — and notes the hard-limit hit
in telemetry; when the count is at or above the soft limit but admitting
stays within the hard limit, the new tuple count is only reported and the
key is still admitted.  (`StatsdStats::clampDimensionKeySizeLimit` keeps
the hard limit at or above the soft limit, hypothesis `hsh`.) -/
theorem handleStartEvent_guardrail (st : DProducerState)
    (eventKey : MetricDimensionKey) (condition : Bool) (eventTimeNs : Int)
    (eventValues : List FieldValue)
    (hnew : findTracker st.trackerMap eventKey.dimensionKeyInWhat = none)
    (hsh : st.softLimit ≤ st.dimensionHardLimit) :
    (st.dimensionHardLimit < st.trackerMap.length + 1 →
      (handleStartEvent st eventKey condition eventTimeNs eventValues).trackerMap
        = st.trackerMap ∧
      (handleStartEvent st eventKey condition eventTimeNs eventValues).telemetry
        = st.telemetry ++
          [TelemetryEvent.metricDimensionSize (st.trackerMap.length + 1),
            TelemetryEvent.hardDimensionLimitReached]) ∧
    (st.softLimit ≤ st.trackerMap.length →
      st.trackerMap.length + 1 ≤ st.dimensionHardLimit →
      findTracker (handleStartEvent st eventKey condition eventTimeNs
          eventValues).trackerMap eventKey.dimensionKeyInWhat ≠ none ∧
      (handleStartEvent st eventKey condition eventTimeNs eventValues).telemetry
        = st.telemetry ++
          [TelemetryEvent.metricDimensionSize (st.trackerMap.length + 1)]) := by
  constructor
  · intro hhard
    have hsoft : st.softLimit ≤ st.trackerMap.length := by omega
    have hg : hitGuardRail st eventKey =
        (true, [TelemetryEvent.metricDimensionSize (st.trackerMap.length + 1),
          TelemetryEvent.hardDimensionLimitReached], true) := by
      unfold hitGuardRail
      rw [hnew, if_pos hsoft, if_pos (by omega)]
    simp only [handleStartEvent, hnew, hg]
    simp
  · intro hsoft hhard
    have hg : hitGuardRail st eventKey =
        (false, [TelemetryEvent.metricDimensionSize (st.trackerMap.length + 1)],
          st.hasHitGuardrail) := by
      unfold hitGuardRail
      rw [hnew, if_pos hsoft, if_neg (by omega)]
    simp only [handleStartEvent, hnew, hg]
    simp [findTracker_setTracker]

theorem maskFV_idem (v : FieldValue) : maskFV (maskFV v) = maskFV v := rfl

theorem baseMatches_maskFV (m : Matcher) (v : FieldValue) :
    baseMatches m (maskFV v).field = baseMatches m v.field := rfl

theorem baseMatches_iff (m : Matcher) (f : Field) :
    baseMatches m f = true ↔ f.tag = m.tag ∧ f.path = m.path := by
  unfold baseMatches
  simp only [Bool.and_eq_true, beq_iff_eq]
  constructor
  · rintro ⟨h1, h2⟩
    exact ⟨h1.symm, h2.symm⟩
  · rintro ⟨h1, h2⟩
    exact ⟨h1.symm, h2.symm⟩

theorem baseMatches_of_exact (m : Matcher) (f : Field)
    (h : exactMatches m f = true) : baseMatches m f = true := by
  simp only [exactMatches, Bool.and_eq_true] at h
  exact h.1.1

theorem find_append_none {α : Type} (p : α → Bool) (l1 l2 : List α)
    (h : ∀ v ∈ l1, p v = false) :
    List.find? p (l1 ++ l2) = List.find? p l2 := by
  induction l1 with
  | nil => rfl
  | cons a t ih =>
    rw [List.cons_append, List.find?_cons_of_neg _ (by simp [h a (List.mem_cons_self a t)])]
    exact ih (fun v hv => h v (List.mem_cons_of_mem a hv))

theorem find_append_some {α : Type} (p : α → Bool) (l1 l2 : List α) (x : α)
    (h : List.find? p l1 = some x) :
    List.find? p (l1 ++ l2) = some x := by
  induction l1 with
  | nil => simp at h
  | cons a t ih =>
    by_cases hpa : p a = true
    · rw [List.find?_cons_of_pos _ hpa] at h
      rw [List.cons_append, List.find?_cons_of_pos _ hpa]
      exact h
    · rw [List.find?_cons_of_neg _ hpa] at h
      rw [List.cons_append, List.find?_cons_of_neg _ hpa]
      exact ih h

theorem mem_of_getLast_eq {α : Type} (l : List α) (a : α)
    (h : l.getLast? = some a) : a ∈ l := by
  rcases List.mem_getLast?_eq_getLast (l := l) (x := a) h with ⟨hne, rfl⟩
  exact List.getLast_mem hne

theorem matcherHits_mem_base (m : Matcher) (vs h : List FieldValue)
    (hh : matcherHits m vs = some h) :
    ∀ v ∈ h, v.field.tag = m.tag ∧ v.field.path = m.path := by
  intro v hv
  cases hpos : m.position <;> simp only [matcherHits, hpos] at hh
  · rcases hfind : vs.find? (fun v => exactMatches m v.field) with _ | u <;>
      rw [hfind] at hh
    · simp at hh
    · obtain rfl : h = [u] := by simpa using hh.symm
      obtain rfl : v = u := by simpa using hv
      exact (baseMatches_iff m v.field).mp (baseMatches_of_exact m v.field
        (by have hps := List.find?_some hfind; simpa using hps))
  · rcases hfind : vs.find? (fun v => baseMatches m v.field) with _ | u <;>
      rw [hfind] at hh
    · simp at hh
    · obtain rfl : h = [maskFV u] := by simpa using hh.symm
      obtain rfl : v = maskFV u := by simpa using hv
      exact (baseMatches_iff m (maskFV u).field).mp
        (by rw [baseMatches_maskFV]; have hps := List.find?_some hfind; simpa using hps)
  · rcases hfind : (vs.filter (fun v => baseMatches m v.field)).getLast? with _ | u <;>
      rw [hfind] at hh
    · simp at hh
    · obtain rfl : h = [maskFV u] := by simpa using hh.symm
      obtain rfl : v = maskFV u := by simpa using hv
      have hu := (List.mem_filter.mp (mem_of_getLast_eq _ _ hfind)).2
      exact (baseMatches_iff m (maskFV u).field).mp
        (by rw [baseMatches_maskFV]; simpa using hu)
  · rcases hfind : vs.find? (fun v => baseMatches m v.field) with _ | u <;>
      rw [hfind] at hh
    · simp at hh
    · obtain rfl : h = [maskFV u] := by simpa using hh.symm
      obtain rfl : v = maskFV u := by simpa using hv
      exact (baseMatches_iff m (maskFV u).field).mp
        (by rw [baseMatches_maskFV]; have hps := List.find?_some hfind; simpa using hps)
  · rcases hfil : vs.filter (fun v => baseMatches m v.field) with _ | ⟨u, rest⟩ <;>
      rw [hfil] at hh
    · simp at hh
    · rw [if_neg (by simp)] at hh
      obtain rfl : h = (u :: rest).map maskFV := by simpa using hh.symm
      rcases List.mem_map.mp hv with ⟨w, hw, rfl⟩
      have hwmem : w ∈ vs.filter (fun v => baseMatches m v.field) := by
        rw [hfil]; exact hw
      exact (baseMatches_iff m (maskFV w).field).mp
        (by rw [baseMatches_maskFV]; simpa using (List.mem_filter.mp hwmem).2)

theorem matcherHits_prepend (m : Matcher) (pre vs : List FieldValue)
    (hpre : ∀ v ∈ pre, baseMatches m v.field = false) :
    matcherHits m (pre ++ vs) = matcherHits m vs := by
  have hpre' : ∀ v ∈ pre, exactMatches m v.field = false := by
    intro v hv
    cases hb : exactMatches m v.field
    · rfl
    · have := baseMatches_of_exact m v.field hb
      rw [hpre v hv] at this
      exact absurd this (by simp)
  have hfil : pre.filter (fun v => baseMatches m v.field) = [] :=
    List.filter_eq_nil_iff.mpr (fun v hv => by simp [hpre v hv])
  cases hpos : m.position <;> simp only [matcherHits, hpos]
  · rw [find_append_none _ _ _ hpre']
  · rw [find_append_none _ _ _ hpre]
  · rw [List.filter_append, hfil, List.nil_append]
  · rw [find_append_none _ _ _ hpre]
  · rw [List.filter_append, hfil, List.nil_append]

theorem matcherHits_append (m : Matcher) (vs post h : List FieldValue)
    (hh : matcherHits m vs = some h)
    (hpost : ∀ v ∈ post, baseMatches m v.field = false) :
    matcherHits m (vs ++ post) = some h := by
  have hfil : post.filter (fun v => baseMatches m v.field) = [] :=
    List.filter_eq_nil_iff.mpr (fun v hv => by simp [hpost v hv])
  cases hpos : m.position <;> simp only [matcherHits, hpos] at hh ⊢
  · rcases hfind : vs.find? (fun v => exactMatches m v.field) with _ | u <;>
      rw [hfind] at hh
    · simp at hh
    · have hpost' : ∀ v ∈ post, exactMatches m v.field = false := by
        intro v hv
        cases hb : exactMatches m v.field
        · rfl
        · have := baseMatches_of_exact m v.field hb
          rw [hpost v hv] at this
          exact absurd this (by simp)
      rw [find_append_some _ _ _ _ hfind]
      exact hh
  · rcases hfind : vs.find? (fun v => baseMatches m v.field) with _ | u <;>
      rw [hfind] at hh
    · simp at hh
    · rw [find_append_some _ _ _ _ hfind]
      exact hh
  · rw [List.filter_append, hfil, List.append_nil]
    exact hh
  · rcases hfind : vs.find? (fun v => baseMatches m v.field) with _ | u <;>
      rw [hfind] at hh
    · simp at hh
    · rw [find_append_some _ _ _ _ hfind]
      exact hh
  · rw [List.filter_append, hfil, List.append_nil]
    exact hh

theorem matcherHits_self (m : Matcher) (vs h : List FieldValue)
    (hh : matcherHits m vs = some h) :
    matcherHits m h = some h := by
  cases hpos : m.position <;> simp only [matcherHits, hpos] at hh ⊢
  · rcases hfind : vs.find? (fun v => exactMatches m v.field) with _ | u <;>
      rw [hfind] at hh
    · simp at hh
    · obtain rfl : h = [u] := by simpa using hh.symm
      rw [List.find?_cons_of_pos _
        (by have hps := List.find?_some hfind; simpa using hps)]
      rfl
  · rcases hfind : vs.find? (fun v => baseMatches m v.field) with _ | u <;>
      rw [hfind] at hh
    · simp at hh
    · obtain rfl : h = [maskFV u] := by simpa using hh.symm
      rw [List.find?_cons_of_pos _ (by
        rw [baseMatches_maskFV]
        have hps := List.find?_some hfind
        simpa using hps)]
      simp [maskFV_idem]
  · rcases hfind : (vs.filter (fun v => baseMatches m v.field)).getLast? with _ | u <;>
      rw [hfind] at hh
    · simp at hh
    · obtain rfl : h = [maskFV u] := by simpa using hh.symm
      have hu : baseMatches m (maskFV u).field = true := by
        rw [baseMatches_maskFV]
        simpa using (List.mem_filter.mp (mem_of_getLast_eq _ _ hfind)).2
      have hsingle : [maskFV u].filter (fun v => baseMatches m v.field) = [maskFV u] :=
        List.filter_eq_self.mpr (by
          intro a ha
          rcases List.mem_singleton.mp ha with rfl
          simpa using hu)
      rw [hsingle]
      simp [maskFV_idem]
  · rcases hfind : vs.find? (fun v => baseMatches m v.field) with _ | u <;>
      rw [hfind] at hh
    · simp at hh
    · obtain rfl : h = [maskFV u] := by simpa using hh.symm
      rw [List.find?_cons_of_pos _ (by
        rw [baseMatches_maskFV]
        have hps := List.find?_some hfind
        simpa using hps)]
      simp [maskFV_idem]
  · rcases hfil : vs.filter (fun v => baseMatches m v.field) with _ | ⟨u, rest⟩ <;>
      rw [hfil] at hh
    · simp at hh
    · rw [if_neg (by simp)] at hh
      obtain rfl : h = (u :: rest).map maskFV := by simpa using hh.symm
      have hall : ∀ a ∈ (u :: rest).map maskFV, baseMatches m a.field = true := by
        intro a ha
        rcases List.mem_map.mp ha with ⟨w, hw, rfl⟩
        have hwmem : w ∈ vs.filter (fun v => baseMatches m v.field) := by
          rw [hfil]; exact hw
        rw [baseMatches_maskFV]
        simpa using (List.mem_filter.mp hwmem).2
      rw [List.filter_eq_self.mpr (by
        intro a ha
        simpa using hall a ha)]
      rw [if_neg (by simp)]
      simp [List.map_map, Function.comp, maskFV_idem]

theorem allHits_mem_base (ms : List Matcher) (vs out : List FieldValue)
    (hh : allHits ms vs = some out) :
    ∀ v ∈ out, ∃ m ∈ ms, v.field.tag = m.tag ∧ v.field.path = m.path := by
  induction ms generalizing out with
  | nil =>
    obtain rfl : out = [] := by simpa [allHits] using hh.symm
    simp
  | cons m rest ih =>
    unfold allHits at hh
    rcases h1 : matcherHits m vs with _ | h <;> rw [h1] at hh
    · exact absurd hh (by simp)
    · rcases h2 : allHits rest vs with _ | t <;> rw [h2] at hh
      · exact absurd hh (by simp)
      · obtain rfl : out = h ++ t := by simpa using hh.symm
        intro v hv
        rcases List.mem_append.mp hv with hvh | hvt
        · exact ⟨m, List.mem_cons_self m rest, matcherHits_mem_base m vs h h1 v hvh⟩
        · rcases ih t h2 v hvt with ⟨m', hm', hp⟩
          exact ⟨m', List.mem_cons_of_mem m hm', hp⟩

theorem allHits_prepend (ms : List Matcher) (pre vs : List FieldValue)
    (hpre : ∀ v ∈ pre, ∀ m ∈ ms, ¬ (v.field.tag = m.tag ∧ v.field.path = m.path)) :
    allHits ms (pre ++ vs) = allHits ms vs := by
  induction ms with
  | nil => rfl
  | cons m rest ih =>
    unfold allHits
    rw [matcherHits_prepend m pre vs (fun v hv => by
      cases hb : baseMatches m v.field
      · rfl
      · exact absurd ((baseMatches_iff m v.field).mp hb)
          (hpre v hv m (List.mem_cons_self m rest)))]
    rw [ih (fun v hv m' hm' => hpre v hv m' (List.mem_cons_of_mem m hm'))]

theorem allHits_idem (ms : List Matcher) (vs out : List FieldValue)
    (hd : ms.Pairwise distinctBase) (hh : allHits ms vs = some out) :
    allHits ms out = some out := by
  induction ms generalizing vs out with
  | nil =>
    obtain rfl : out = [] := by simpa [allHits] using hh.symm
    rfl
  | cons m rest ih =>
    rcases List.pairwise_cons.mp hd with ⟨hd1, hd2⟩
    unfold allHits at hh
    rcases h1 : matcherHits m vs with _ | h <;> rw [h1] at hh
    · exact absurd hh (by simp)
    rcases h2 : allHits rest vs with _ | t <;> rw [h2] at hh
    · exact absurd hh (by simp)
    obtain rfl : out = h ++ t := by simpa using hh.symm
    have htm : ∀ v ∈ t, baseMatches m v.field = false := by
      intro v hv
      rcases allHits_mem_base rest vs t h2 v hv with ⟨m', hm', hvt, hvp⟩
      cases hb : baseMatches m v.field
      · rfl
      · rcases (baseMatches_iff m v.field).mp hb with ⟨he1, he2⟩
        rcases hd1 m' hm' with hne | hne
        · exact absurd (he1 ▸ hvt) hne
        · exact absurd (he2 ▸ hvp) hne
    have hstep1 : matcherHits m (h ++ t) = some h :=
      matcherHits_append m h t h (matcherHits_self m vs h h1) htm
    have hstep2 : allHits rest (h ++ t) = some t := by
      rw [allHits_prepend rest h t (fun v hv m' hm' hx => by
        rcases matcherHits_mem_base m vs h h1 v hv with ⟨hvt, hvp⟩
        rcases hd1 m' hm' with hne | hne
        · exact hne (hvt ▸ hx.1)
        · exact hne (hvp ▸ hx.2))]
      exact ih vs t hd2 h2
    unfold allHits
    rw [hstep1, hstep2]

/-- C4 (counterexample): the dimension filter, as described in §4.1, is
not idempotent for every matcher list: with a LAST and a FIRST matcher on
the same field, re-filtering the filtered output swaps the two masked
hits. -/
theorem filterValues_not_idempotent :
    ((filterValues [cexLastM, cexFirstM] cexVals).bind
        (fun k => filterValues [cexLastM, cexFirstM] k.values))
      ≠ filterValues [cexLastM, cexFirstM] cexVals := by
  decide

/-- C4 (amended): the filter is referentially transparent, and
`filter(M, filter(M, A)) = filter(M, A)` holds for every matcher list
whose matchers extract pairwise distinct fields (different root tag or
path) — the unrestricted statement fails when two matchers overlap on one
field, see the counterexample. -/
theorem filterValues_refl_and_idem (ms : List Matcher) (vs : List FieldValue)
    (hd : ms.Pairwise distinctBase) :
    filterValues ms vs = filterValues ms vs ∧
    (∀ k, filterValues ms vs = some k → filterValues ms k.values = some k) := by
  refine ⟨rfl, fun k hk => ?_⟩
  unfold filterValues at hk ⊢
  rcases h1 : allHits ms vs with _ | out <;> rw [h1] at hk
  · exact absurd hk (by simp)
  · obtain rfl : k = ⟨out⟩ := by simpa using hk.symm
    rw [allHits_idem ms vs out hd h1]
    rfl

/-- Witness for the amended C4 at a single FIRST matcher over the
two-occurrence atom. -/
theorem filterValues_refl_and_idem_witness :
    filterValues [cexFirstM]
        (HashableDimensionKey.mk [maskFV ⟨cexFieldPos1, Value.vInt 1⟩]).values
      = some ⟨[maskFV ⟨cexFieldPos1, Value.vInt 1⟩]⟩ :=
  (filterValues_refl_and_idem [cexFirstM] cexVals (by decide)).2
    ⟨[maskFV ⟨cexFieldPos1, Value.vInt 1⟩]⟩ (by decide)

theorem hashFieldValue_maskFV (v : FieldValue) :
    hashFieldValue (maskFV v) = hashFieldValue v := rfl

theorem hashDimension_masked (k : HashableDimensionKey) :
    hashDimension ⟨k.values.map maskFV⟩ = hashDimension k := by
  unfold hashDimension
  simp only [List.foldl_map, hashFieldValue_maskFV]

theorem filterValues_single_shape (m : Matcher) (vs : List FieldValue)
    (j : HashableDimensionKey)
    (hpos : m.position = Position.first ∨ m.position = Position.last ∨
      m.position = Position.anyPos)
    (hf : filterValues [m] vs = some j) :
    ∃ u, selectedHit m vs = some u ∧ j.values = [maskFV u] ∧
      u.field.tag = m.tag ∧ u.field.path = m.path := by
  unfold filterValues at hf
  rcases h0 : allHits [m] vs with _ | out <;> rw [h0] at hf
  · simp at hf
  obtain rfl : j = ⟨out⟩ := by simpa using hf.symm
  simp only [allHits] at h0
  rcases hmh : matcherHits m vs with _ | hl <;> rw [hmh] at h0
  · simp at h0
  obtain rfl : out = hl ++ [] := by simpa using h0.symm
  rcases hpos with hp | hp | hp <;>
    simp only [matcherHits, hp] at hmh <;> simp only [selectedHit, hp]
  · rcases hfind : vs.find? (fun v => baseMatches m v.field) with _ | u <;>
      rw [hfind] at hmh
    · simp at hmh
    · obtain rfl : hl = [maskFV u] := by simpa using hmh.symm
      refine ⟨u, hfind, by simp, ?_⟩
      exact (baseMatches_iff m u.field).mp
        (by have hps := List.find?_some hfind; simpa using hps)
  · rcases hfind : (vs.filter (fun v => baseMatches m v.field)).getLast? with _ | u <;>
      rw [hfind] at hmh
    · simp at hmh
    · obtain rfl : hl = [maskFV u] := by simpa using hmh.symm
      refine ⟨u, hfind, by simp, ?_⟩
      exact (baseMatches_iff m u.field).mp
        (by simpa using (List.mem_filter.mp (mem_of_getLast_eq _ _ hfind)).2)
  · rcases hfind : vs.find? (fun v => baseMatches m v.field) with _ | u <;>
      rw [hfind] at hmh
    · simp at hmh
    · obtain rfl : hl = [maskFV u] := by simpa using hmh.symm
      refine ⟨u, hfind, by simp, ?_⟩
      exact (baseMatches_iff m u.field).mp
        (by have hps := List.find?_some hfind; simpa using hps)

/-- C3: dimension keys compare equal iff their value vectors are equal
field by field after position masking, equal keys hash equally, and two
keys built by a FIRST/LAST/ANY matcher from occurrences of the field with
the same payload at different (masked) positions are equal with equal
hashes. -/
theorem hdkEq_masked_iff_and_hash (k1 k2 : HashableDimensionKey) :
    (hdkEq k1 k2 = true ↔ k1.values.map maskFV = k2.values.map maskFV) ∧
    (hdkEq k1 k2 = true → hashDimension k1 = hashDimension k2) ∧
    (∀ (m : Matcher) (vs1 vs2 : List FieldValue) (j1 j2 : HashableDimensionKey),
      (m.position = Position.first ∨ m.position = Position.last ∨
        m.position = Position.anyPos) →
      filterValues [m] vs1 = some j1 → filterValues [m] vs2 = some j2 →
      (selectedHit m vs1).map (fun v => v.value)
        = (selectedHit m vs2).map (fun v => v.value) →
      hdkEq j1 j2 = true ∧ hashDimension j1 = hashDimension j2) := by
  have hmaineq : ∀ a b : HashableDimensionKey, hdkEq a b = true ↔
      a.values.map maskFV = b.values.map maskFV := by
    intro a b
    unfold hdkEq
    exact beq_iff_eq
  have hmainhash : ∀ a b : HashableDimensionKey, hdkEq a b = true →
      hashDimension a = hashDimension b := by
    intro a b hab
    rw [← hashDimension_masked a, ← hashDimension_masked b, (hmaineq a b).mp hab]
  refine ⟨hmaineq k1 k2, hmainhash k1 k2, ?_⟩
  intro m vs1 vs2 j1 j2 hpos hf1 hf2 hsel
  rcases filterValues_single_shape m vs1 j1 hpos hf1 with ⟨u1, hs1, hv1, ht1, hp1⟩
  rcases filterValues_single_shape m vs2 j2 hpos hf2 with ⟨u2, hs2, hv2, ht2, hp2⟩
  rw [hs1, hs2] at hsel
  have hval : u1.value = u2.value := by simpa using hsel
  have hmf : maskField u1.field = maskField u2.field := by
    unfold maskField
    rw [show u1.field.tag = u2.field.tag from ht1.trans ht2.symm,
      show u1.field.path = u2.field.path from hp1.trans hp2.symm]
  have hmasked : maskFV u1 = maskFV u2 := by
    unfold maskFV
    rw [hmf, hval]
  have heq : hdkEq j1 j2 = true := by
    rw [hmaineq]
    rw [hv1, hv2]
    simp [maskFV_idem, hmasked]
  exact ⟨heq, hmainhash j1 j2 heq⟩

/-- Witness for C3: the same uid payload selected by LAST at
attribution-chain positions 1 and 2 yields equal keys and hashes. -/
theorem hdkEq_masked_iff_and_hash_witness :
    hdkEq ⟨[maskFV ⟨cexFieldPos2, Value.vInt 2⟩]⟩
        ⟨[maskFV ⟨cexFieldPos1, Value.vInt 2⟩]⟩ = true ∧
    hashDimension ⟨[maskFV ⟨cexFieldPos2, Value.vInt 2⟩]⟩
      = hashDimension ⟨[maskFV ⟨cexFieldPos1, Value.vInt 2⟩]⟩ :=
  (hdkEq_masked_iff_and_hash defaultDimensionKey defaultDimensionKey).2.2
    cexLastM cexVals [⟨cexFieldPos1, Value.vInt 2⟩]
    ⟨[maskFV ⟨cexFieldPos2, Value.vInt 2⟩]⟩ ⟨[maskFV ⟨cexFieldPos1, Value.vInt 2⟩]⟩
    (Or.inr (Or.inl rfl)) (by decide) (by decide) (by decide)

/-- Witness for C5 at a concrete producer whose single live tracker puts
it at the soft limit, with room below the hard limit. -/
theorem handleStartEvent_guardrail_witness :
    findTracker (handleStartEvent
        { sampleProducerState with trackerMap := [(⟨[]⟩, newDTracker 0)] }
        ⟨cexUidKey, defaultDimensionKey⟩ true 5 []).trackerMap cexUidKey ≠ none ∧
    (handleStartEvent
        { sampleProducerState with trackerMap := [(⟨[]⟩, newDTracker 0)] }
        ⟨cexUidKey, defaultDimensionKey⟩ true 5 []).telemetry
      = [] ++ [TelemetryEvent.metricDimensionSize 2] :=
  (handleStartEvent_guardrail
    { sampleProducerState with trackerMap := [(⟨[]⟩, newDTracker 0)] }
    ⟨cexUidKey, defaultDimensionKey⟩ true 5 [] (by decide) (by decide)).2
    (by decide) (by decide)

section AnomalyProofs

variable {K : Type} [DecidableEq K]

theorem clearBucket_informed (t : AnomalyTracker K) (b : Int) :
    (clearBucket t b).informedSubscribers = t.informedSubscribers := by
  unfold clearBucket
  split <;> rfl

theorem clearBucket_refractory (t : AnomalyTracker K) (b : Int) :
    (clearBucket t b).refractoryPeriodEndsSec = t.refractoryPeriodEndsSec := by
  unfold clearBucket
  split <;> rfl

theorem clearBucket_refractorySec (t : AnomalyTracker K) (b : Int) :
    (clearBucket t b).refractoryPeriodSec = t.refractoryPeriodSec := by
  unfold clearBucket
  split <;> rfl

theorem foldl_clearBucket_informed (l : List Int) (t : AnomalyTracker K) :
    (l.foldl clearBucket t).informedSubscribers = t.informedSubscribers := by
  induction l generalizing t with
  | nil => rfl
  | cons a rest ih => rw [List.foldl_cons, ih, clearBucket_informed]

theorem foldl_clearBucket_refractory (l : List Int) (t : AnomalyTracker K) :
    (l.foldl clearBucket t).refractoryPeriodEndsSec = t.refractoryPeriodEndsSec := by
  induction l generalizing t with
  | nil => rfl
  | cons a rest ih => rw [List.foldl_cons, ih, clearBucket_refractory]

theorem foldl_clearBucket_refractorySec (l : List Int) (t : AnomalyTracker K) :
    (l.foldl clearBucket t).refractoryPeriodSec = t.refractoryPeriodSec := by
  induction l generalizing t with
  | nil => rfl
  | cons a rest ih => rw [List.foldl_cons, ih, clearBucket_refractorySec]

theorem advance_informed (t : AnomalyTracker K) (b : Int) :
    (advanceMostRecentBucketTo t b).informedSubscribers = t.informedSubscribers := by
  unfold advanceMostRecentBucketTo
  split
  · rfl
  · exact foldl_clearBucket_informed _ t

theorem advance_refractory (t : AnomalyTracker K) (b : Int) :
    (advanceMostRecentBucketTo t b).refractoryPeriodEndsSec
      = t.refractoryPeriodEndsSec := by
  unfold advanceMostRecentBucketTo
  split
  · rfl
  · exact foldl_clearBucket_refractory _ t

theorem advance_refractorySec (t : AnomalyTracker K) (b : Int) :
    (advanceMostRecentBucketTo t b).refractoryPeriodSec = t.refractoryPeriodSec := by
  unfold advanceMostRecentBucketTo
  split
  · rfl
  · exact foldl_clearBucket_refractorySec _ t

theorem advance_isInRefractory (t : AnomalyTracker K) (b timestampNs : Int) (k : K) :
    isInRefractoryPeriod (advanceMostRecentBucketTo t b) timestampNs k
      = isInRefractoryPeriod t timestampNs k := by
  unfold isInRefractoryPeriod getRefractoryPeriodEndsSec
  rw [advance_refractory]

theorem list_ne_append_singleton {α : Type} (l : List α) (a : α) :
    ¬ l = l ++ [a] := by
  intro h
  have := congrArg List.length h
  simp at this

/-- C1: an anomaly is detected and declared — the subscribers informed and
the refractory window end recorded for the key — iff the sum of stored past
bucket values for the key (after advancing to `currBucketNum - 1`) plus the
current partial bucket value strictly exceeds `trigger_if_sum_gt` and the
event timestamp is not inside the key's refractory period. -/
theorem detectAndDeclareAnomaly_iff (t : AnomalyTracker K)
    (timestampNs currBucketNum metricId : Int) (k : K)
    (currentBucketValue : Int) :
    ((detectAndDeclareAnomaly t timestampNs currBucketNum metricId k
          currentBucketValue).informedSubscribers
        = t.informedSubscribers ++ [(k, metricId, currentBucketValue)] ∧
      (detectAndDeclareAnomaly t timestampNs currBucketNum metricId k
          currentBucketValue).refractoryPeriodEndsSec
        = mapSet t.refractoryPeriodEndsSec k
            (timestampNs / nsPerSec + 1 + t.refractoryPeriodSec))
    ↔ (getSumOverPastBuckets (advanceMostRecentBucketTo t (currBucketNum - 1)) k
          + currentBucketValue > t.triggerIfSumGt
        ∧ isInRefractoryPeriod t timestampNs k = false) := by
  have hdd : detectAndDeclareAnomaly t timestampNs currBucketNum metricId k
        currentBucketValue
      = if getSumOverPastBuckets (advanceMostRecentBucketTo t (currBucketNum - 1)) k
            + currentBucketValue > t.triggerIfSumGt
        then declareAnomaly (advanceMostRecentBucketTo t (currBucketNum - 1))
          timestampNs metricId k currentBucketValue
        else advanceMostRecentBucketTo t (currBucketNum - 1) := by
    unfold detectAndDeclareAnomaly detectAnomaly
    by_cases hdet : getSumOverPastBuckets
        (advanceMostRecentBucketTo t (currBucketNum - 1)) k
          + currentBucketValue > t.triggerIfSumGt
    · rw [if_pos (by simpa using hdet), if_pos hdet]
    · rw [if_neg (by simpa using hdet), if_neg hdet]
  by_cases hdet : getSumOverPastBuckets
      (advanceMostRecentBucketTo t (currBucketNum - 1)) k
        + currentBucketValue > t.triggerIfSumGt
  · rw [hdd, if_pos hdet]
    unfold declareAnomaly
    by_cases href : isInRefractoryPeriod t timestampNs k = true
    · rw [if_pos (by rw [advance_isInRefractory]; exact href)]
      constructor
      · intro hcontra
        rw [advance_informed] at hcontra
        exact absurd hcontra.1 (list_ne_append_singleton _ _)
      · intro hcontra
        rw [href] at hcontra
        exact absurd hcontra.2 (by simp)
    · have href' : isInRefractoryPeriod t timestampNs k = false := by
        cases hx : isInRefractoryPeriod t timestampNs k
        · rfl
        · exact absurd hx href
      rw [if_neg (by rw [advance_isInRefractory]; simp [href'])]
      constructor
      · intro _
        exact ⟨hdet, href'⟩
      · intro _
        constructor
        · simp [advance_informed]
        · simp [advance_refractory, advance_refractorySec]
  · rw [hdd, if_neg hdet]
    constructor
    · intro hcontra
      rw [advance_informed] at hcontra
      exact absurd hcontra.1 (list_ne_append_singleton _ _)
    · intro hcontra
      exact absurd hcontra.1 hdet

theorem lookupD_of_not_containsKey {m : DimToValMap K} {k : K}
    (h : containsKey m k = false) : lookupD m k = 0 := by
  induction m with
  | nil => rfl
  | cons p rest ih =>
    unfold containsKey at h
    rw [Bool.or_eq_false_iff] at h
    unfold lookupD
    rw [if_neg (by simpa using h.1)]
    exact ih h.2

theorem containsKey_of_lookupD_ne {m : DimToValMap K} {k : K}
    (h : lookupD m k ≠ 0) : containsKey m k = true := by
  cases hc : containsKey m k
  · exact absurd (lookupD_of_not_containsKey hc) h
  · rfl

theorem not_containsKey_of_forall {m : DimToValMap K} {k : K}
    (h : ∀ q ∈ m, q.1 ≠ k) : containsKey m k = false := by
  induction m with
  | nil => rfl
  | cons p rest ih =>
    unfold containsKey
    rw [Bool.or_eq_false_iff]
    exact ⟨by simpa using h p (List.mem_cons_self p rest),
      ih (fun q hq => h q (List.mem_cons_of_mem p hq))⟩

theorem lookupD_mem_nodup {m : DimToValMap K} (hm : keysNodup m) {p : K × Int}
    (hp : p ∈ m) : lookupD m p.1 = p.2 := by
  induction m with
  | nil => cases hp
  | cons q rest ih =>
    rcases List.pairwise_cons.mp hm with ⟨hq, hrest⟩
    rcases List.mem_cons.mp hp with rfl | hp'
    · unfold lookupD
      rw [if_pos rfl]
    · unfold lookupD
      rw [if_neg (hq p hp')]
      exact ih hrest hp'

theorem lookupD_sumInsert (m : DimToValMap K) (k : K) (v : Int) (j : K) :
    lookupD (sumInsert m k v) j = lookupD m j + (if j = k then v else 0) := by
  induction m with
  | nil =>
    by_cases hjk : j = k
    · subst hjk
      simp [sumInsert, lookupD]
    · have h2 : ¬ k = j := fun h => hjk h.symm
      simp [sumInsert, lookupD, hjk, h2]
  | cons p rest ih =>
    by_cases hpk : p.1 = k
    · subst hpk
      by_cases hjp : j = p.1
      · subst hjp
        simp [sumInsert, lookupD]
      · have h2 : ¬ p.1 = j := fun h => hjp h.symm
        simp [sumInsert, lookupD, hjp, h2]
    · by_cases hpj : p.1 = j
      · have hjk : ¬ j = k := fun h => hpk (hpj.trans h)
        simp [sumInsert, lookupD, hpk, hpj, hjk]
      · simp [sumInsert, lookupD, hpk, hpj, ih]

theorem mem_sumInsert {m : DimToValMap K} {k : K} {v : Int} {q : K × Int}
    (hq : q ∈ sumInsert m k v) : q ∈ m ∨ q = (k, lookupD m k + v) := by
  induction m with
  | nil =>
    right
    simpa [sumInsert, lookupD] using hq
  | cons p rest ih =>
    by_cases hpk : p.1 = k
    · subst hpk
      rw [show sumInsert (p :: rest) p.1 v = (p.1, p.2 + v) :: rest from by
        simp [sumInsert]] at hq
      rcases List.mem_cons.mp hq with rfl | hq'
      · right
        simp [lookupD]
      · left
        exact List.mem_cons_of_mem p hq'
    · rw [show sumInsert (p :: rest) k v = p :: sumInsert rest k v from by
        simp [sumInsert, hpk]] at hq
      rcases List.mem_cons.mp hq with rfl | hq'
      · left
        exact List.mem_cons_self q rest
      · rcases ih hq' with h | h
        · left
          exact List.mem_cons_of_mem p h
        · right
          rw [h]
          simp [lookupD, hpk]

theorem keysNodup_sumInsert {m : DimToValMap K} (hm : keysNodup m) (k : K) (v : Int) :
    keysNodup (sumInsert m k v) := by
  induction m with
  | nil =>
    simp [sumInsert, keysNodup]
  | cons p rest ih =>
    rcases List.pairwise_cons.mp hm with ⟨hp, hrest⟩
    by_cases hpk : p.1 = k
    · subst hpk
      rw [show sumInsert (p :: rest) p.1 v = (p.1, p.2 + v) :: rest from by
        simp [sumInsert]]
      exact List.pairwise_cons.mpr ⟨fun q hq => hp q hq, hrest⟩
    · rw [show sumInsert (p :: rest) k v = p :: sumInsert rest k v from by
        simp [sumInsert, hpk]]
      refine List.pairwise_cons.mpr ⟨?_, ih hrest⟩
      intro q hq
      rcases mem_sumInsert hq with h | h
      · exact hp q h
      · rw [h]
        exact hpk

theorem lookupD_mapSet (m : DimToValMap K) (k : K) (v : Int) (j : K) :
    lookupD (mapSet m k v) j = if j = k then v else lookupD m j := by
  induction m with
  | nil =>
    by_cases hjk : j = k
    · subst hjk
      simp [mapSet, lookupD]
    · have h2 : ¬ k = j := fun h => hjk h.symm
      simp [mapSet, lookupD, hjk, h2]
  | cons p rest ih =>
    by_cases hpk : p.1 = k
    · subst hpk
      by_cases hjp : j = p.1
      · subst hjp
        simp [mapSet, lookupD]
      · have h2 : ¬ p.1 = j := fun h => hjp h.symm
        simp [mapSet, lookupD, hjp, h2]
    · by_cases hpj : p.1 = j
      · have hjk : ¬ j = k := fun h => hpk (hpj.trans h)
        simp [mapSet, lookupD, hpk, hpj, hjk]
      · simp [mapSet, lookupD, hpk, hpj, ih]

theorem mem_mapSet {m : DimToValMap K} {k : K} {v : Int} {q : K × Int}
    (hq : q ∈ mapSet m k v) : q ∈ m ∨ q = (k, v) := by
  induction m with
  | nil =>
    right
    simpa [mapSet] using hq
  | cons p rest ih =>
    by_cases hpk : p.1 = k
    · rw [show mapSet (p :: rest) k v = (k, v) :: rest from by simp [mapSet, hpk]] at hq
      rcases List.mem_cons.mp hq with rfl | hq'
      · right
        rfl
      · left
        exact List.mem_cons_of_mem p hq'
    · rw [show mapSet (p :: rest) k v = p :: mapSet rest k v from by
        simp [mapSet, hpk]] at hq
      rcases List.mem_cons.mp hq with rfl | hq'
      · left
        exact List.mem_cons_self q rest
      · rcases ih hq' with h | h
        · left
          exact List.mem_cons_of_mem p h
        · right
          exact h

theorem keysNodup_mapSet {m : DimToValMap K} (hm : keysNodup m) (k : K) (v : Int) :
    keysNodup (mapSet m k v) := by
  induction m with
  | nil =>
    simp [mapSet, keysNodup]
  | cons p rest ih =>
    rcases List.pairwise_cons.mp hm with ⟨hp, hrest⟩
    by_cases hpk : p.1 = k
    · rw [show mapSet (p :: rest) k v = (k, v) :: rest from by simp [mapSet, hpk]]
      refine List.pairwise_cons.mpr ⟨?_, hrest⟩
      intro q hq
      rw [← hpk]
      exact hp q hq
    · rw [show mapSet (p :: rest) k v = p :: mapSet rest k v from by simp [mapSet, hpk]]
      refine List.pairwise_cons.mpr ⟨?_, ih hrest⟩
      intro q hq
      rcases mem_mapSet hq with h | h
      · exact hp q h
      · rw [h]
        exact hpk

theorem lookupD_subtractValueFromSum {m : DimToValMap K} (hm : keysNodup m)
    (k : K) (v : Int) (j : K) :
    lookupD (subtractValueFromSum m k v) j =
      if j = k then
        (if containsKey m k then lookupD m j - v else lookupD m j)
      else lookupD m j := by
  induction m with
  | nil =>
    simp [subtractValueFromSum, lookupD, containsKey]
  | cons p rest ih =>
    rcases List.pairwise_cons.mp hm with ⟨hp, hrest⟩
    by_cases hpk : p.1 = k
    · subst hpk
      have hcont : containsKey (p :: rest) p.1 = true := by simp [containsKey]
      have hrest0 : lookupD rest p.1 = 0 :=
        lookupD_of_not_containsKey (not_containsKey_of_forall (fun q hq => (hp q hq).symm))
      by_cases hsub : p.2 - v = 0
      · rw [show subtractValueFromSum (p :: rest) p.1 v = rest from by
          simp [subtractValueFromSum, hsub]]
        by_cases hjp : j = p.1
        · subst hjp
          simp [hcont, lookupD, hrest0, hsub]
        · have h2 : ¬ p.1 = j := fun h => hjp h.symm
          simp [lookupD, hjp, h2]
      · rw [show subtractValueFromSum (p :: rest) p.1 v = (p.1, p.2 - v) :: rest from by
          simp [subtractValueFromSum, hsub]]
        by_cases hjp : j = p.1
        · subst hjp
          simp [hcont, lookupD]
        · have h2 : ¬ p.1 = j := fun h => hjp h.symm
          simp [lookupD, hjp, h2]
    · rw [show subtractValueFromSum (p :: rest) k v = p :: subtractValueFromSum rest k v
        from by simp [subtractValueFromSum, hpk]]
      have hcont : containsKey (p :: rest) k = containsKey rest k := by
        simp [containsKey, hpk]
      by_cases hpj : p.1 = j
      · have hjk : ¬ j = k := fun h => hpk (hpj.trans h)
        simp [lookupD, hpj, hjk]
      · simp [lookupD, hpj, ih hrest, hcont]

theorem mem_subtractValueFromSum {m : DimToValMap K} {k : K} {v : Int}
    {q : K × Int} (hq : q ∈ subtractValueFromSum m k v) :
    q ∈ m ∨ (q.1 = k ∧ q.2 = lookupD m k - v ∧ q.2 ≠ 0) := by
  induction m with
  | nil =>
    simp [subtractValueFromSum] at hq
  | cons p rest ih =>
    by_cases hpk : p.1 = k
    · subst hpk
      by_cases hsub : p.2 - v = 0
      · rw [show subtractValueFromSum (p :: rest) p.1 v = rest from by
          simp [subtractValueFromSum, hsub]] at hq
        left
        exact List.mem_cons_of_mem p hq
      · rw [show subtractValueFromSum (p :: rest) p.1 v = (p.1, p.2 - v) :: rest from by
          simp [subtractValueFromSum, hsub]] at hq
        rcases List.mem_cons.mp hq with rfl | hq'
        · right
          refine ⟨rfl, ?_, hsub⟩
          simp [lookupD]
        · left
          exact List.mem_cons_of_mem p hq'
    · rw [show subtractValueFromSum (p :: rest) k v = p :: subtractValueFromSum rest k v
        from by simp [subtractValueFromSum, hpk]] at hq
      rcases List.mem_cons.mp hq with rfl | hq'
      · left
        exact List.mem_cons_self q rest
      · rcases ih hq' with h | ⟨h1, h2, h3⟩
        · left
          exact List.mem_cons_of_mem p h
        · right
          refine ⟨h1, ?_, h3⟩
          rw [h2]
          have : ¬ p.1 = q.1 := by rw [h1]; exact hpk
          simp [lookupD, h1, hpk]

theorem keysNodup_subtractValueFromSum {m : DimToValMap K} (hm : keysNodup m)
    (k : K) (v : Int) : keysNodup (subtractValueFromSum m k v) := by
  induction m with
  | nil =>
    simp [subtractValueFromSum, keysNodup]
  | cons p rest ih =>
    rcases List.pairwise_cons.mp hm with ⟨hp, hrest⟩
    by_cases hpk : p.1 = k
    · subst hpk
      by_cases hsub : p.2 - v = 0
      · rw [show subtractValueFromSum (p :: rest) p.1 v = rest from by
          simp [subtractValueFromSum, hsub]]
        exact hrest
      · rw [show subtractValueFromSum (p :: rest) p.1 v = (p.1, p.2 - v) :: rest from by
          simp [subtractValueFromSum, hsub]]
        exact List.pairwise_cons.mpr ⟨fun q hq => hp q hq, hrest⟩
    · rw [show subtractValueFromSum (p :: rest) k v = p :: subtractValueFromSum rest k v
        from by simp [subtractValueFromSum, hpk]]
      refine List.pairwise_cons.mpr ⟨?_, ih hrest⟩
      intro q hq
      rcases mem_subtractValueFromSum hq with h | ⟨h1, _, _⟩
      · exact hp q h
      · rw [h1]
        exact hpk

theorem containsKey_subtractValueFromSum_ne {m : DimToValMap K} {k j : K}
    (hjk : j ≠ k) (v : Int) :
    containsKey (subtractValueFromSum m k v) j = containsKey m j := by
  induction m with
  | nil =>
    rfl
  | cons p rest ih =>
    by_cases hpk : p.1 = k
    · subst hpk
      by_cases hsub : p.2 - v = 0
      · rw [show subtractValueFromSum (p :: rest) p.1 v = rest from by
          simp [subtractValueFromSum, hsub]]
        have : ¬ p.1 = j := fun h => hjk h.symm
        simp [containsKey, this]
      · rw [show subtractValueFromSum (p :: rest) p.1 v = (p.1, p.2 - v) :: rest from by
          simp [subtractValueFromSum, hsub]]
        simp [containsKey]
    · rw [show subtractValueFromSum (p :: rest) k v = p :: subtractValueFromSum rest k v
        from by simp [subtractValueFromSum, hpk]]
      simp [containsKey, ih]

theorem lookupD_subtractBucketFromSum {sum b : DimToValMap K} (hsum : keysNodup sum)
    (hb : keysNodup b) (hpres : ∀ p ∈ b, containsKey sum p.1 = true) (j : K) :
    lookupD (subtractBucketFromSum sum (some b)) j = lookupD sum j - lookupD b j := by
  induction b generalizing sum with
  | nil =>
    simp [subtractBucketFromSum, lookupD]
  | cons p rest ih =>
    rcases List.pairwise_cons.mp hb with ⟨hp, hrest⟩
    have hstep : subtractBucketFromSum sum (some (p :: rest))
        = subtractBucketFromSum (subtractValueFromSum sum p.1 p.2) (some rest) := rfl
    rw [hstep]
    have hnodup1 := keysNodup_subtractValueFromSum hsum p.1 p.2
    have hpres1 : ∀ q ∈ rest,
        containsKey (subtractValueFromSum sum p.1 p.2) q.1 = true := by
      intro q hq
      rw [containsKey_subtractValueFromSum_ne (fun h => hp q hq h.symm)]
      exact hpres q (List.mem_cons_of_mem p hq)
    rw [ih hnodup1 hrest hpres1, lookupD_subtractValueFromSum hsum p.1 p.2 j]
    by_cases hjp : j = p.1
    · subst hjp
      rw [if_pos rfl, if_pos (hpres p (List.mem_cons_self p rest))]
      have h0 : lookupD rest p.1 = 0 :=
        lookupD_of_not_containsKey
          (not_containsKey_of_forall (fun q hq => (hp q hq).symm))
      simp [lookupD, h0]
    · rw [if_neg hjp]
      have h2 : ¬ p.1 = j := fun h => hjp h.symm
      simp [lookupD, h2]

theorem mem_subtractBucketFromSum {sum b : DimToValMap K} {q : K × Int}
    (hq : q ∈ subtractBucketFromSum sum (some b)) : q ∈ sum ∨ q.2 ≠ 0 := by
  induction b generalizing sum with
  | nil =>
    exact Or.inl hq
  | cons p rest ih =>
    have hstep : subtractBucketFromSum sum (some (p :: rest))
        = subtractBucketFromSum (subtractValueFromSum sum p.1 p.2) (some rest) := rfl
    rw [hstep] at hq
    rcases ih hq with h | h
    · rcases mem_subtractValueFromSum h with h' | ⟨_, _, h3⟩
      · exact Or.inl h'
      · exact Or.inr h3
    · exact Or.inr h

theorem keysNodup_subtractBucketFromSum {sum b : DimToValMap K}
    (hsum : keysNodup sum) : keysNodup (subtractBucketFromSum sum (some b)) := by
  induction b generalizing sum with
  | nil =>
    exact hsum
  | cons p rest ih =>
    exact ih (keysNodup_subtractValueFromSum hsum p.1 p.2)

theorem lookupD_addBucketToSum {sum b : DimToValMap K} (hb : keysNodup b) (j : K) :
    lookupD (addBucketToSum sum (some b)) j = lookupD sum j + lookupD b j := by
  induction b generalizing sum with
  | nil =>
    simp [addBucketToSum, lookupD]
  | cons p rest ih =>
    rcases List.pairwise_cons.mp hb with ⟨hp, hrest⟩
    have hstep : addBucketToSum sum (some (p :: rest))
        = addBucketToSum (sumInsert sum p.1 p.2) (some rest) := rfl
    rw [hstep, ih hrest, lookupD_sumInsert]
    by_cases hjp : j = p.1
    · subst hjp
      have h0 : lookupD rest p.1 = 0 :=
        lookupD_of_not_containsKey
          (not_containsKey_of_forall (fun q hq => (hp q hq).symm))
      simp [lookupD, h0]
    · have h2 : ¬ p.1 = j := fun h => hjp h.symm
      simp [lookupD, hjp, h2]

theorem lookupD_nonneg_of_pos {m : DimToValMap K} (hm : ∀ q ∈ m, 0 < q.2) (j : K) :
    0 ≤ lookupD m j := by
  induction m with
  | nil =>
    simp [lookupD]
  | cons p rest ih =>
    unfold lookupD
    by_cases hpj : p.1 = j
    · rw [if_pos hpj]
      exact (hm p (List.mem_cons_self p rest)).le
    · rw [if_neg hpj]
      exact ih (fun q hq => hm q (List.mem_cons_of_mem p hq))

theorem pos_addBucketToSum {sum b : DimToValMap K} (hsum : ∀ q ∈ sum, 0 < q.2)
    (hb : ∀ p ∈ b, 0 < p.2) : ∀ q ∈ addBucketToSum sum (some b), 0 < q.2 := by
  induction b generalizing sum with
  | nil =>
    exact hsum
  | cons p rest ih =>
    have hstep : addBucketToSum sum (some (p :: rest))
        = addBucketToSum (sumInsert sum p.1 p.2) (some rest) := rfl
    rw [hstep]
    refine ih ?_ (fun q hq => hb q (List.mem_cons_of_mem p hq))
    intro q hq
    rcases mem_sumInsert hq with h | h
    · exact hsum q h
    · rw [h]
      have h1 := lookupD_nonneg_of_pos hsum p.1
      have h2 := hb p (List.mem_cons_self p rest)
      simp only []
      omega

theorem keysNodup_addBucketToSum {sum b : DimToValMap K}
    (hsum : keysNodup sum) : keysNodup (addBucketToSum sum (some b)) := by
  induction b generalizing sum with
  | nil =>
    exact hsum
  | cons p rest ih =>
    exact ih (keysNodup_sumInsert hsum p.1 p.2)

theorem slotVal_nonneg {s : Option (DimToValMap K)}
    (hs : ∀ b, s = some b → ∀ p ∈ b, 0 < p.2) (k : K) : 0 ≤ slotVal s k := by
  cases s with
  | none =>
    simp [slotVal]
  | some b =>
    exact lookupD_nonneg_of_pos (hs b rfl) k

theorem slotsSum_set (slots : List (Option (DimToValMap K))) (i : Nat)
    (v : Option (DimToValMap K)) (k : K) (hi : i < slots.length) :
    slotsSum (slots.set i v) k
      = slotsSum slots k - slotVal (slots.getD i none) k + slotVal v k := by
  induction slots generalizing i with
  | nil =>
    simp at hi
  | cons s rest ih =>
    cases i with
    | zero =>
      simp [slotsSum, List.set]
      ring
    | succ n =>
      have hn : n < rest.length := by simpa using hi
      simp only [List.set, slotsSum, List.map_cons, List.sum_cons, List.getD_cons_succ]
      have := ih n hn
      unfold slotsSum at this
      omega

theorem slotsSum_nonneg {slots : List (Option (DimToValMap K))}
    (hwf : ∀ s ∈ slots, ∀ b, s = some b → ∀ p ∈ b, 0 < p.2) (k : K) :
    0 ≤ slotsSum slots k := by
  induction slots with
  | nil =>
    simp [slotsSum]
  | cons s rest ih =>
    simp only [slotsSum, List.map_cons, List.sum_cons]
    have h1 := slotVal_nonneg (hwf s (List.mem_cons_self s rest)) k
    have h2 := ih (fun s' hs' => hwf s' (List.mem_cons_of_mem s hs'))
    unfold slotsSum at h2
    omega

theorem slot_le_slotsSum {slots : List (Option (DimToValMap K))}
    (hwf : ∀ s ∈ slots, ∀ b, s = some b → ∀ p ∈ b, 0 < p.2) {i : Nat}
    (hi : i < slots.length) (k : K) :
    slotVal (slots.getD i none) k ≤ slotsSum slots k := by
  have hset := slotsSum_set slots i none k hi
  have hwf' : ∀ s ∈ slots.set i none, ∀ b, s = some b → ∀ p ∈ b, 0 < p.2 := by
    intro s hs
    rcases List.mem_or_eq_of_mem_set hs with h | rfl
    · exact hwf s h
    · intro b hb
      cases hb
  have hnn := slotsSum_nonneg hwf' k
  rw [hset] at hnn
  simp [slotVal] at hnn ⊢
  omega

theorem getD_mem_of_lt {l : List (Option (DimToValMap K))} {i : Nat}
    (hi : i < l.length) : l.getD i none ∈ l := by
  rw [List.getD_eq_getElem l none hi]
  exact List.getElem_mem hi

theorem keysNodup_subtractOpt {sum : DimToValMap K} (hsum : keysNodup sum)
    (o : Option (DimToValMap K)) : keysNodup (subtractBucketFromSum sum o) := by
  cases o with
  | none => exact hsum
  | some b => exact keysNodup_subtractBucketFromSum hsum

theorem trackerInv_store (t : AnomalyTracker K) (nb : Option (DimToValMap K))
    (i : Nat) (hi : i < t.pastBuckets.length)
    (hnb : ∀ b, nb = some b → keysNodup b ∧ ∀ p ∈ b, 0 < p.2)
    (hinv : trackerInv t) :
    trackerInv { t with
      sumOverPastBuckets :=
        addBucketToSum
          (subtractBucketFromSum t.sumOverPastBuckets (t.pastBuckets.getD i none)) nb,
      pastBuckets := t.pastBuckets.set i nb } := by
  obtain ⟨hlen, hsumEq, hnodup, hpos, hslot⟩ := hinv
  have hwfslots : ∀ s ∈ t.pastBuckets, ∀ b, s = some b → ∀ p ∈ b, 0 < p.2 :=
    fun s hs b hb => (hslot s hs b hb).2
  have holdwf : ∀ b, t.pastBuckets.getD i none = some b →
      keysNodup b ∧ ∀ p ∈ b, 0 < p.2 :=
    fun b hb => hslot _ (getD_mem_of_lt hi) b hb
  have hs1 : ∀ j,
      lookupD (subtractBucketFromSum t.sumOverPastBuckets (t.pastBuckets.getD i none)) j
        = slotsSum (t.pastBuckets.set i none) j := by
    intro j
    rcases hcase : t.pastBuckets.getD i none with _ | ob
    · show lookupD t.sumOverPastBuckets j = _
      rw [hsumEq j, slotsSum_set _ i none j hi, hcase]
      simp [slotVal]
    · obtain ⟨obnodup, obpos⟩ := holdwf ob hcase
      have hpres : ∀ p ∈ ob, containsKey t.sumOverPastBuckets p.1 = true := by
        intro p hp
        apply containsKey_of_lookupD_ne
        have h1 : lookupD ob p.1 = p.2 := lookupD_mem_nodup obnodup hp
        have h2 := slot_le_slotsSum hwfslots hi p.1
        rw [hcase] at h2
        have h3 := obpos p hp
        rw [hsumEq p.1]
        simp only [slotVal, h1] at h2
        omega
      rw [lookupD_subtractBucketFromSum hnodup obnodup hpres j,
        hsumEq j, slotsSum_set _ i none j hi, hcase]
      simp [slotVal]
  have hs1nodup : keysNodup
      (subtractBucketFromSum t.sumOverPastBuckets (t.pastBuckets.getD i none)) :=
    keysNodup_subtractOpt hnodup _
  have hsetwf : ∀ s ∈ t.pastBuckets.set i none, ∀ b, s = some b →
      ∀ p ∈ b, 0 < p.2 := by
    intro s hs
    rcases List.mem_or_eq_of_mem_set hs with h | rfl
    · exact hwfslots s h
    · intro b hb
      cases hb
  have hs1pos : ∀ q ∈
      subtractBucketFromSum t.sumOverPastBuckets (t.pastBuckets.getD i none),
        0 < q.2 := by
    intro q hq
    rcases hcase : t.pastBuckets.getD i none with _ | ob
    · rw [hcase] at hq
      exact hpos q hq
    · rw [hcase] at hq
      rcases mem_subtractBucketFromSum hq with h | h
      · exact hpos q h
      · have hnodup2 : keysNodup (subtractBucketFromSum t.sumOverPastBuckets (some ob)) :=
          keysNodup_subtractBucketFromSum hnodup
        have hql : lookupD (subtractBucketFromSum t.sumOverPastBuckets (some ob)) q.1
            = q.2 := lookupD_mem_nodup hnodup2 hq
        have hs1q := hs1 q.1
        rw [hcase] at hs1q
        rw [hs1q] at hql
        have hnn := slotsSum_nonneg hsetwf q.1
        omega
  refine ⟨by simp [List.length_set, hlen], ?_, ?_, ?_, ?_⟩
  · intro k
    show lookupD (addBucketToSum _ nb) k = slotsSum (t.pastBuckets.set i nb) k
    rcases hnbc : nb with _ | b
    · show lookupD
          (subtractBucketFromSum t.sumOverPastBuckets (t.pastBuckets.getD i none)) k = _
      rw [hs1 k]
    · obtain ⟨bnodup, _⟩ := hnb b hnbc
      rw [lookupD_addBucketToSum bnodup k, hs1 k,
        slotsSum_set _ i (some b) k hi, slotsSum_set _ i none k hi]
      simp [slotVal]
  · show keysNodup (addBucketToSum _ nb)
    rcases nb with _ | b
    · exact hs1nodup
    · exact keysNodup_addBucketToSum hs1nodup
  · show ∀ q ∈ addBucketToSum _ nb, 0 < q.2
    rcases hnbc : nb with _ | b
    · exact hs1pos
    · exact pos_addBucketToSum hs1pos (hnb b hnbc).2
  · intro s hs
    rcases List.mem_or_eq_of_mem_set hs with h | rfl
    · exact hslot s h
    · exact hnb

theorem bucketIndex_lt (t : AnomalyTracker K) (bucketNum : Int)
    (hN : t.numOfPastBuckets ≠ 0) (hb : 0 ≤ bucketNum) :
    bucketIndex t bucketNum < t.numOfPastBuckets := by
  unfold bucketIndex
  have hNpos : (0 : Int) < (t.numOfPastBuckets : Int) := by
    exact_mod_cast Nat.pos_of_ne_zero hN
  have h1 : 0 ≤ bucketNum % (t.numOfPastBuckets : Int) :=
    Int.emod_nonneg _ (ne_of_gt hNpos)
  have h2 : bucketNum % (t.numOfPastBuckets : Int) < t.numOfPastBuckets :=
    Int.emod_lt_of_pos _ hNpos
  omega

theorem trackerInv_clearBucket (t : AnomalyTracker K) (b : Int)
    (hinv : trackerInv t) : trackerInv (clearBucket t b) := by
  unfold clearBucket
  split
  · exact hinv
  · rename_i h
    push_neg at h
    exact trackerInv_store t none (bucketIndex t b)
      (by rw [hinv.1]; exact bucketIndex_lt t b h.1 h.2)
      (fun b' hb' => by cases hb') hinv

theorem trackerInv_foldl_clear (l : List Int) (t : AnomalyTracker K)
    (hinv : trackerInv t) : trackerInv (l.foldl clearBucket t) := by
  induction l generalizing t with
  | nil => exact hinv
  | cons a rest ih => exact ih _ (trackerInv_clearBucket t a hinv)

theorem trackerInv_advance (t : AnomalyTracker K) (b : Int)
    (hinv : trackerInv t) : trackerInv (advanceMostRecentBucketTo t b) := by
  unfold advanceMostRecentBucketTo
  split
  · exact hinv
  · exact trackerInv_foldl_clear _ t hinv

theorem clearBucket_numOf (t : AnomalyTracker K) (b : Int) :
    (clearBucket t b).numOfPastBuckets = t.numOfPastBuckets := by
  unfold clearBucket
  split <;> rfl

theorem foldl_clearBucket_numOf (l : List Int) (t : AnomalyTracker K) :
    (l.foldl clearBucket t).numOfPastBuckets = t.numOfPastBuckets := by
  induction l generalizing t with
  | nil => rfl
  | cons a rest ih => rw [List.foldl_cons, ih, clearBucket_numOf]

theorem advance_numOf (t : AnomalyTracker K) (b : Int) :
    (advanceMostRecentBucketTo t b).numOfPastBuckets = t.numOfPastBuckets := by
  unfold advanceMostRecentBucketTo
  split
  · rfl
  · exact foldl_clearBucket_numOf _ t

theorem trackerInv_addPastBucket (t : AnomalyTracker K)
    (bucket : Option (DimToValMap K)) (bucketNum : Int)
    (hbk : ∀ b, bucket = some b → keysNodup b ∧ ∀ p ∈ b, 0 < p.2)
    (hinv : trackerInv t) : trackerInv (addPastBucket t bucket bucketNum) := by
  unfold addPastBucket
  split
  · exact hinv
  split
  · exact hinv
  split
  · rename_i hN hguard _
    push_neg at hguard
    exact trackerInv_store t bucket (bucketIndex t bucketNum)
      (by rw [hinv.1]; exact bucketIndex_lt t bucketNum hN hguard.1)
      hbk hinv
  · rename_i hN hguard _
    push_neg at hguard
    have hinv' := trackerInv_advance t bucketNum hinv
    exact trackerInv_store (advanceMostRecentBucketTo t bucketNum) bucket
      (bucketIndex (advanceMostRecentBucketTo t bucketNum) bucketNum)
      (by
        rw [hinv'.1]
        exact bucketIndex_lt _ bucketNum (by rw [advance_numOf]; exact hN)
          hguard.1)
      hbk hinv'

theorem trackerInv_storeKey (t : AnomalyTracker K) (key : K) (value : Int)
    (i : Nat) (hi : i < t.pastBuckets.length) (hv : 0 < value)
    (hinv : trackerInv t) :
    trackerInv { t with
      sumOverPastBuckets :=
        sumInsert
          (subtractValueFromSum t.sumOverPastBuckets key
            (slotVal (t.pastBuckets.getD i none) key)) key value,
      pastBuckets := t.pastBuckets.set i
        (some (mapSet ((t.pastBuckets.getD i none).getD []) key value)) } := by
  obtain ⟨hlen, hsumEq, hnodup, hpos, hslot⟩ := hinv
  have hwfslots : ∀ s ∈ t.pastBuckets, ∀ b, s = some b → ∀ p ∈ b, 0 < p.2 :=
    fun s hs b hb => (hslot s hs b hb).2
  have hb0wf : keysNodup ((t.pastBuckets.getD i none).getD []) ∧
      ∀ p ∈ (t.pastBuckets.getD i none).getD [], 0 < p.2 := by
    rcases hcase : t.pastBuckets.getD i none with _ | ob
    · constructor
      · exact List.Pairwise.nil
      · intro p hp
        cases hp
    · exact hslot _ (getD_mem_of_lt hi) ob hcase
  have hovnn : 0 ≤ slotVal (t.pastBuckets.getD i none) key := by
    rcases hcase : t.pastBuckets.getD i none with _ | ob
    · simp [slotVal]
    · exact lookupD_nonneg_of_pos (hslot _ (getD_mem_of_lt hi) ob hcase).2 key
  have hovle := slot_le_slotsSum hwfslots hi key
  have hs1 : ∀ j,
      lookupD (subtractValueFromSum t.sumOverPastBuckets key
          (slotVal (t.pastBuckets.getD i none) key)) j
        = if j = key then
            slotsSum t.pastBuckets key - slotVal (t.pastBuckets.getD i none) key
          else lookupD t.sumOverPastBuckets j := by
    intro j
    rw [lookupD_subtractValueFromSum hnodup key _ j]
    by_cases hjk : j = key
    · subst hjk
      rw [if_pos rfl, if_pos rfl]
      by_cases hc : containsKey t.sumOverPastBuckets j = true
      · rw [if_pos hc, hsumEq j]
      · rw [if_neg hc]
        have h0 : lookupD t.sumOverPastBuckets j = 0 :=
          lookupD_of_not_containsKey (by
            cases hx : containsKey t.sumOverPastBuckets j
            · rfl
            · exact absurd hx hc)
        rw [h0]
        rw [hsumEq j] at h0
        omega
    · rw [if_neg hjk, if_neg hjk]
  have hs1nodup := keysNodup_subtractValueFromSum hnodup key
    (slotVal (t.pastBuckets.getD i none) key)
  refine ⟨by simp [List.length_set, hlen], ?_, ?_, ?_, ?_⟩
  · intro j
    show lookupD (sumInsert _ key value) j = _
    rw [lookupD_sumInsert, hs1 j, slotsSum_set _ i _ j hi]
    by_cases hjk : j = key
    · subst hjk
      rw [if_pos rfl, if_pos rfl]
      have hmv : slotVal
          (some (mapSet ((t.pastBuckets.getD i none).getD []) j value)) j = value := by
        simp [slotVal, lookupD_mapSet]
      rw [hmv]
    · rw [if_neg hjk, if_neg hjk]
      have hb0 : slotVal (some (mapSet ((t.pastBuckets.getD i none).getD []) key value)) j
          = slotVal (t.pastBuckets.getD i none) j := by
        simp only [slotVal, lookupD_mapSet, if_neg hjk]
        rcases hcase : t.pastBuckets.getD i none with _ | ob
        · simp [lookupD]
        · rfl
      rw [hb0, hsumEq j]
      omega
  · exact keysNodup_sumInsert hs1nodup key value
  · intro q hq
    rcases mem_sumInsert hq with h | h
    · rcases mem_subtractValueFromSum h with h' | ⟨h1, h2, h3⟩
      · exact hpos q h'
      · rw [hsumEq key] at h2
        omega
    · have hq2 : q.2 = lookupD (subtractValueFromSum t.sumOverPastBuckets key
          (slotVal (t.pastBuckets.getD i none) key)) key + value := by
        rw [h]
      have h5 := hs1 key
      rw [if_pos rfl] at h5
      omega
  · intro s hs
    rcases List.mem_or_eq_of_mem_set hs with h | rfl
    · exact hslot s h
    · intro b hb
      obtain rfl : b = mapSet ((t.pastBuckets.getD i none).getD []) key value := by
        simpa using hb.symm
      constructor
      · exact keysNodup_mapSet hb0wf.1 key value
      · intro p hp
        rcases mem_mapSet hp with h' | h'
        · exact hb0wf.2 p h'
        · rw [h']
          exact hv

theorem trackerInv_addPastBucketKey (t : AnomalyTracker K) (key : K)
    (value : Int) (bucketNum : Int) (hv : 0 < value) (hinv : trackerInv t) :
    trackerInv (addPastBucketKey t key value bucketNum) := by
  unfold addPastBucketKey
  split
  · exact hinv
  split
  · exact hinv
  split
  · rename_i hN hguard _
    push_neg at hguard
    exact trackerInv_storeKey t key value (bucketIndex t bucketNum)
      (by rw [hinv.1]; exact bucketIndex_lt t bucketNum hN hguard.1) hv hinv
  · rename_i hN hguard _
    push_neg at hguard
    have hinv' := trackerInv_advance t bucketNum hinv
    refine trackerInv_store (advanceMostRecentBucketTo t bucketNum)
      (some [(key, value)])
      (bucketIndex (advanceMostRecentBucketTo t bucketNum) bucketNum)
      (by
        rw [hinv'.1]
        exact bucketIndex_lt _ bucketNum (by rw [advance_numOf]; exact hN) hguard.1)
      ?_ hinv'
    intro b hb
    obtain rfl : b = [(key, value)] := by simpa using hb.symm
    constructor
    · exact List.pairwise_cons.mpr ⟨(fun q hq => by cases hq), List.Pairwise.nil⟩
    · intro p hp
      rcases List.mem_singleton.mp hp with rfl
      exact hv

theorem trackerInv_applyAddOp (t : AnomalyTracker K) (op : AddOp K)
    (hop : addOpWF op) (hinv : trackerInv t) :
    trackerInv (applyAddOp t op) := by
  cases op with
  | addBucket bucket bucketNum =>
    refine trackerInv_addPastBucket t bucket bucketNum ?_ hinv
    intro b hb
    cases bucket with
    | none => cases hb
    | some b' =>
      obtain rfl : b = b' := by simpa using hb.symm
      exact hop
  | addKeyValue key value bucketNum =>
    exact trackerInv_addPastBucketKey t key value bucketNum hop hinv

theorem slotsSum_replicate_none (n : Nat) (k : K) :
    slotsSum (List.replicate n (none : Option (DimToValMap K))) k = 0 := by
  induction n with
  | zero => rfl
  | succ m ih =>
    simp only [List.replicate, slotsSum, List.map_cons, List.sum_cons]
    unfold slotsSum at ih
    rw [ih]
    simp [slotVal]

theorem trackerInv_init (N : Nat) (thr refr : Int) :
    trackerInv (initAnomalyTracker K N thr refr) := by
  refine ⟨List.length_replicate N none, ?_, List.Pairwise.nil, ?_, ?_⟩
  · intro k
    show (0 : Int) = slotsSum (List.replicate N (none : Option (DimToValMap K))) k
    rw [slotsSum_replicate_none]
  · intro p hp
    cases hp
  · intro s hs b hb
    rw [List.eq_of_mem_replicate hs] at hb
    cases hb

theorem trackerInv_foldl_ops (ops : List (AddOp K)) (t : AnomalyTracker K)
    (hwf : ∀ op ∈ ops, addOpWF op) (hinv : trackerInv t) :
    trackerInv (ops.foldl applyAddOp t) := by
  induction ops generalizing t with
  | nil => exact hinv
  | cons op rest ih =>
    exact ih _ (fun o ho => hwf o (List.mem_cons_of_mem op ho))
      (trackerInv_applyAddOp t op (hwf op (List.mem_cons_self op rest)) hinv)

/-- C2: after any sequence of `addPastBucket` calls on a fresh anomaly
tracker (with the well-formed inputs the metric producers supply: unique
keys and strictly positive bucket values), the cached
`mSumOverPastBuckets` value of every dimension key — 0 when the key is
absent — equals the sum over all buckets stored in the `mPastBuckets`
ring of that bucket's value for the key, and the cache holds no entry
whose value is 0. -/
theorem sumOverPastBuckets_correct (K : Type) [DecidableEq K]
    (numOfPastBuckets : Nat) (triggerIfSumGt refractoryPeriodSec : Int)
    (ops : List (AddOp K)) (hwf : ∀ op ∈ ops, addOpWF op) (k : K) :
    lookupD (ops.foldl applyAddOp (initAnomalyTracker K numOfPastBuckets
        triggerIfSumGt refractoryPeriodSec)).sumOverPastBuckets k
      = slotsSum (ops.foldl applyAddOp (initAnomalyTracker K numOfPastBuckets
          triggerIfSumGt refractoryPeriodSec)).pastBuckets k ∧
    ∀ p ∈ (ops.foldl applyAddOp (initAnomalyTracker K numOfPastBuckets
        triggerIfSumGt refractoryPeriodSec)).sumOverPastBuckets, p.2 ≠ 0 := by
  have hinv := trackerInv_foldl_ops ops
    (initAnomalyTracker K numOfPastBuckets triggerIfSumGt refractoryPeriodSec) hwf
    (trackerInv_init numOfPastBuckets triggerIfSumGt refractoryPeriodSec)
  exact ⟨hinv.2.1 k, fun p hp => (hinv.2.2.2.1 p hp).ne'⟩

/-- Witness for C2: two concrete `addPastBucket` calls on a two-slot
tracker. -/
theorem sumOverPastBuckets_correct_witness :
    lookupD ([AddOp.addBucket (some [(1, 5)]) 0,
        AddOp.addKeyValue 2 7 1].foldl applyAddOp
        (initAnomalyTracker Nat 2 9 30)).sumOverPastBuckets 1
      = slotsSum ([AddOp.addBucket (some [(1, 5)]) 0,
          AddOp.addKeyValue 2 7 1].foldl applyAddOp
          (initAnomalyTracker Nat 2 9 30)).pastBuckets 1 ∧
    ∀ p ∈ ([AddOp.addBucket (some [(1, 5)]) 0,
        AddOp.addKeyValue 2 7 1].foldl applyAddOp
        (initAnomalyTracker Nat 2 9 30)).sumOverPastBuckets, p.2 ≠ 0 :=
  sumOverPastBuckets_correct Nat 2 9 30
    [AddOp.addBucket (some [(1, 5)]) 0, AddOp.addKeyValue 2 7 1]
    (by
      intro op hop
      rcases List.mem_cons.mp hop with rfl | hop2
      · exact ⟨by unfold keysNodup; decide, by decide⟩
      · rcases List.mem_singleton.mp hop2 with rfl
        exact (by decide : (0 : Int) < 7))
    1

end AnomalyProofs

theorem dtOCC_self (tr : DTracker) (c : Bool) (t : Int)
    (h : c = tr.conditionMet) : dtOnConditionChanged tr c t = tr := by
  unfold dtOnConditionChanged
  rw [if_pos h]

theorem map_snd_eq_self {α β : Type} (l : List (α × β)) (f : α × β → β)
    (h : ∀ p ∈ l, f p = p.2) : l.map (fun p => (p.1, f p)) = l := by
  induction l with
  | nil => rfl
  | cons p rest ih =>
    rw [List.map_cons, h p (List.mem_cons_self p rest),
      ih (fun q hq => h q (List.mem_cons_of_mem p hq))]

theorem deliver_eq_occ (tr : DTracker) (w : WizardM)
    (ct cf : List HashableDimensionKey) (uOld cu : Bool)
    (L : HashableDimensionKey) (t : Int)
    (hcu : cu = wizUNew w)
    (hct0 : w.changedToTrueDims = some ct) (hcf0 : w.changedToFalseDims = some cf)
    (hmet : tr.conditionMet = (uOld && slicedOld w ct cf L))
    (hct : ∀ k ∈ ct, slicedNow w k = true)
    (hcf : ∀ k ∈ cf, slicedNow w k = false)
    (hchg : ct ≠ [] ∨ cf ≠ [] → uOld = wizUNew w) :
    deliverAll tr (opt1Notifs w cu L) t
      = dtOnConditionChanged tr (wizUNew w && slicedNow w L) t := by
  subst hcu
  simp only [opt1Notifs, hct0, hcf0]
  by_cases hempty : ct.isEmpty = true ∧ cf.isEmpty = true
  · rw [if_pos hempty]
    have hctnil : ct = [] := List.isEmpty_iff.mp hempty.1
    have hcfnil : cf = [] := List.isEmpty_iff.mp hempty.2
    have hso : slicedOld w ct cf L = slicedNow w L := by
      unfold slicedOld
      rw [if_neg (by rw [hctnil]; intro hx; cases hx),
        if_neg (by rw [hcfnil]; intro hx; cases hx)]
    by_cases hsn : slicedNow w L = true
    · rw [if_pos (by exact of_decide_eq_true hsn)]
      show dtOnConditionChanged tr (wizUNew w) t = _
      rw [hsn, Bool.and_true]
    · have hsn' : slicedNow w L = false := by
        cases hx : slicedNow w L
        · rfl
        · exact absurd hx hsn
      rw [if_neg (by
        intro hx
        rw [show slicedNow w L = true from decide_eq_true hx] at hsn'
        cases hsn')]
      show tr = _
      rw [hsn', Bool.and_false]
      refine (dtOCC_self tr false t ?_).symm
      rw [hmet, hso, hsn', Bool.and_false]
  · rw [if_neg hempty]
    have hne : ct ≠ [] ∨ cf ≠ [] := by
      rcases not_and_or.mp hempty with h | h
      · left
        intro hx
        rw [hx] at h
        exact h rfl
      · right
        intro hx
        rw [hx] at h
        exact h rfl
    have huu := hchg hne
    by_cases hcu2 : wizUNew w = true
    · rw [if_pos hcu2]
      by_cases hLct : L ∈ ct
      · have hLcf : L ∉ cf := by
          intro hx
          have h1 := hct L hLct
          have h2 := hcf L hx
          rw [h1] at h2
          cases h2
        rw [if_pos hLct, if_neg hLcf, List.append_nil]
        show dtOnConditionChanged tr true t = _
        rw [hcu2, hct L hLct, Bool.and_true]
      · by_cases hLcf : L ∈ cf
        · rw [if_neg hLct, if_pos hLcf, List.nil_append]
          show dtOnConditionChanged tr false t = _
          rw [hcf L hLcf, Bool.and_false]
        · rw [if_neg hLct, if_neg hLcf, List.append_nil]
          show tr = _
          have hso : slicedOld w ct cf L = slicedNow w L := by
            unfold slicedOld
            rw [if_neg hLct, if_neg hLcf]
          refine (dtOCC_self tr _ t ?_).symm
          rw [hmet, hso, huu]
    · have hcu' : wizUNew w = false := by
        cases hx : wizUNew w
        · rfl
        · exact absurd hx hcu2
      rw [if_neg hcu2]
      show tr = _
      rw [hcu', Bool.false_and]
      refine (dtOCC_self tr false t ?_).symm
      rw [hmet, huu, hcu', Bool.false_and]

/-- C8 (counterexample): with a trackable single fully-linked condition,
the fast path does not deliver the same `onConditionChanged` notification
sequence as the generic per-tracker path: for a live tracker whose linked
dimension is unchanged and currently false, the fast path delivers nothing
while the generic path delivers one (redundant) notification. -/
theorem opt1_notifications_differ :
    (onSlicedConditionMayChangeOpt1 cexOptSt cexOptW 5).2
      ≠ (genericSlicedConditionChange cexOptSt cexOptW 5).2 := by
  decide

/-- C8 (amended): under the claim's hypotheses (changed dimensions
trackable, exactly one `Metric2Condition` link covering all condition
dimensions) and the wizard's consistency — the per-dimension query agrees
with the unsliced part and the sliced dimension map, each tracker's
condition state reflects the pre-change values, the changed-to-true/false
sets are sound, and the unsliced part did not change when sliced changes
are reported — the fast path inspects only the dimensions reported as
changed yet leaves every live duration tracker in exactly the state the
generic re-query path produces; only redundant notifications are elided. -/
theorem opt1_same_tracker_states (st : DProducerState) (w : WizardM) (t : Int)
    (ct cf : List HashableDimensionKey)
    (hlink : st.links.length = 1)
    (hcov : st.hasLinksToAllConditionDimensionsInTracker = true)
    (htrack : w.isChangedDimensionTrackable = true)
    (hct0 : w.changedToTrueDims = some ct)
    (hcf0 : w.changedToFalseDims = some cf)
    (hq : ∀ k, w.queryFn k = (wizUNew w && slicedNow w k))
    (hold : ∀ p ∈ st.trackerMap,
      p.2.conditionMet = (prodUOld st w && slicedOld w ct cf (linkedDim st p.1)))
    (hct : ∀ k ∈ ct, slicedNow w k = true)
    (hcf : ∀ k ∈ cf, slicedNow w k = false)
    (hchg : ct ≠ [] ∨ cf ≠ [] → prodUOld st w = wizUNew w) :
    (onSlicedConditionMayChangeInternal st w t).1.trackerMap
      = (genericSlicedConditionChange st w t).1.trackerMap := by
  unfold onSlicedConditionMayChangeInternal
  rw [if_pos ⟨htrack, hcov⟩]
  unfold onSlicedConditionMayChangeOpt1 genericSlicedConditionChange
  rw [if_neg (not_not_intro ⟨hlink, hcov⟩)]
  by_cases hearly : (¬ w.isSimpleCondition = true) ∧
      st.unSlicedPartCondition = ConditionState.kFalse ∧
      w.unSlicedPartState = ConditionState.kFalse
  · rw [if_pos hearly]
    show st.trackerMap = _
    symm
    apply map_snd_eq_self
    intro p hp
    have huN : wizUNew w = false := by
      unfold wizUNew
      rw [if_neg hearly.1, hearly.2.2]
      rfl
    have huO : prodUOld st w = false := by
      unfold prodUOld
      rw [if_neg hearly.1, hearly.2.1]
      rfl
    rw [hq (linkedDim st p.1), huN, Bool.false_and]
    apply dtOCC_self
    rw [hold p hp, huO, Bool.false_and]
  · rw [if_neg hearly]
    by_cases hsimp : w.isSimpleCondition = true
    · simp only [hsimp, if_true]
      show st.trackerMap.map _ = st.trackerMap.map _
      apply List.map_congr_left
      intro p hp
      have hcu : true = wizUNew w := by
        unfold wizUNew
        rw [if_pos hsimp]
      rw [hq (linkedDim st p.1)]
      rw [deliver_eq_occ p.2 w ct cf (prodUOld st w) true (linkedDim st p.1) t hcu
        hct0 hcf0 (hold p hp) hct hcf hchg]
    · simp only [hsimp, Bool.false_eq_true, if_false]
      show st.trackerMap.map _ = st.trackerMap.map _
      apply List.map_congr_left
      intro p hp
      have hcu : decide (0 < w.unSlicedPartState.toInt) = wizUNew w := by
        unfold wizUNew
        rw [if_neg hsimp]
      rw [hq (linkedDim st p.1)]
      rw [deliver_eq_occ p.2 w ct cf (prodUOld st w) _ (linkedDim st p.1) t hcu
        hct0 hcf0 (hold p hp) hct hcf hchg]

/-- Witness for the amended C8: a simple sliced condition whose single
linked dimension changes to true; the fast path and the generic path agree
on the resulting tracker state. -/
theorem opt1_same_tracker_states_witness :
    (onSlicedConditionMayChangeInternal witOptSt witOptW 5).1.trackerMap
      = (genericSlicedConditionChange witOptSt witOptW 5).1.trackerMap :=
  opt1_same_tracker_states witOptSt witOptW 5 [⟨[]⟩] []
    (by decide) rfl rfl rfl rfl (fun k => rfl)
    (by decide) (by decide) (by decide) (fun _ => rfl)

end Statsd
